import Mathlib

/-!
# Persona Retention Dashboard — data-pipeline verification

Shallow embedding of the data pipeline of `src/PersonaRetentionDashboard.jsx`:
CSV parsing with delimiter auto-detection, schema normalization, per-user-month
merging, keyword-driven persona classification, retention resolution and
month×persona aggregation with month-over-month deltas.

JavaScript strings are modelled as Lean `String`/`List Char`; JS objects
(header-keyed row mappings) as association lists in insertion order; JS `Map`
and `Set` as association lists / dedup-on-insert lists, which reproduces their
insertion-order iteration semantics.  A JS `undefined` value for a mapped
column is modelled as `""`: every consumer in the source coerces `undefined`
and `""` alike through `(v || "")`, `(v ?? "")`, `String(v || "")` or
truthiness tests, so the two are indistinguishable on all code paths embedded
here.  `Array.prototype.sort`, which ES2019 requires to be stable, is modelled
by a stable insertion sort over the source comparator.  The host-dependent
`new Date(...)` fallback of `monthFromDateString` is abstracted as an explicit
`dateParse` parameter returning the (year, 0-based month) pair the source
extracts via `getFullYear`/`getMonth`; all other branches are translated
directly from the source.
-/

namespace Persona

/-! ## Generic JS-string helpers -/

/-- JS whitespace for `String.prototype.trim` (ASCII forms plus the common
Unicode ones the spec's inputs could contain). -/
def jsIsWs (c : Char) : Bool :=
  c = ' ' || c = '\t' || c = '\n' || c = '\r' || c = '\x0b' || c = '\x0c' ||
  c = '\u00A0' || c = '\uFEFF' || c = '\u2028' || c = '\u2029'

/-- Model of `String.prototype.trim`. -/
def jsTrim (s : String) : String :=
  ⟨((s.data.dropWhile jsIsWs).reverse.dropWhile jsIsWs).reverse⟩

/-- ASCII lower-casing of one character (`String.prototype.toLowerCase`; the
source's inputs and keyword lists are ASCII/Dutch, where JS and ASCII
lower-casing agree). -/
def lowerChar (c : Char) : Char :=
  if 'A' ≤ c && c ≤ 'Z' then Char.ofNat (c.toNat + 32) else c

/-- Model of `String.prototype.toLowerCase`. -/
def jsToLower (s : String) : String := ⟨s.data.map lowerChar⟩

/-- Source helper `norm`: `(s || "").toString().toLowerCase()`. -/
def norm (s : String) : String := jsToLower s

/-- `needle` is a prefix of `hay`. -/
def hasPrefixL : List Char → List Char → Bool
  | [], _ => true
  | _ :: _, [] => false
  | a :: t1, b :: t2 => a = b && hasPrefixL t1 t2

/-- `hay` contains `needle` as a contiguous substring (JS `String.includes`;
in particular the empty needle is always contained). -/
def includesL (hay needle : List Char) : Bool :=
  match hay with
  | [] => needle.isEmpty
  | _ :: t => hasPrefixL needle hay || includesL t needle

/-- Model of `t.includes(kw)` on JS strings. -/
def strIncludes (hay needle : String) : Bool := includesL hay.data needle.data

/-- Lexicographic `≤` on character lists (model of the order induced by
`localeCompare`, which agrees with code-unit order on the `YYYY-MM` month
strings and ASCII user ids the comparators are applied to). -/
def lexLeL : List Char → List Char → Bool
  | [], _ => true
  | _ :: _, [] => false
  | a :: t1, b :: t2 => if a = b then lexLeL t1 t2 else decide (a < b)

/-- Lexicographic `≤` on strings. -/
def lexLe (a b : String) : Bool := lexLeL a.data b.data

/-- JS `s.split(c)` for a single-character separator. -/
def splitOnChar (sep : Char) (l : List Char) : List (List Char) :=
  l.foldr
    (fun c acc =>
      match acc with
      | [] => if c = sep then [[], []] else [[c]]
      | a :: rest => if c = sep then [] :: a :: rest else (c :: a) :: rest)
    [[]]

/-- The digit character for `n < 10`. -/
def digitChar (n : Nat) : Char := Char.ofNat (48 + n)

/-- Decimal digits of `n`, most significant first (`fuel`-structured so that
the kernel can evaluate it; `fuel = n + 1` always suffices). -/
def natReprAux : Nat → Nat → List Char
  | 0, _ => []
  | fuel + 1, n => if n < 10 then [digitChar n] else natReprAux fuel (n / 10) ++ [digitChar (n % 10)]

/-- JS `String(n)` for a natural number. -/
def natRepr (n : Nat) : String := ⟨natReprAux (n + 1) n⟩

/-- `String(n).padStart(2, "0")` as used for month numbers. -/
def pad2 (n : Nat) : String := if n < 10 then "0" ++ natRepr n else natRepr n

/-- Numeric value of a digit character. -/
def digitVal (c : Char) : Nat := c.toNat - 48

/-- Value of a big-endian digit string. -/
def valOfDigits (l : List Char) : Nat := l.foldl (fun acc c => 10 * acc + digitVal c) 0

/-- Model of `parseInt(s, 10)` (`none` = `NaN`).  The source only applies
`parseInt` to the fields of `yyyyMm.split("-")`, which can never contain a
`'-'` sign, so the result is a natural number. -/
def jsParseInt (s : String) : Option Nat :=
  let l := s.data.dropWhile jsIsWs
  let l := if l.head? = some '+' then l.tail else l
  let ds := l.takeWhile Char.isDigit
  if ds.isEmpty then none else some (valOfDigits ds)

/-! ## CSV parser (`detectDelimiter`, `parseCSV`) -/

/-- `s.replace(/^BOM/, "")` (U+FEFF): strip one leading byte-order mark. -/
def stripBOM (s : String) : String :=
  match s.data with
  | c :: t => if c = '\uFEFF' then ⟨t⟩ else s
  | [] => s

/-- Source `detectDelimiter`: count `, ; \t` on the (BOM-stripped) first line;
semicolon wins when it strictly beats comma and is ≥ tab; else tab when it
strictly beats both; else comma. -/
def detectDelimiter (firstLine : String) : Char :=
  let line := stripBOM firstLine
  let commas := line.data.count ','
  let semis := line.data.count ';'
  let tabs := line.data.count '\t'
  if semis > commas && semis ≥ tabs then ';'
  else if tabs > commas && tabs > semis then '\t'
  else ','

/-- `raw.split(/\r?\n/)[0]`: the prefix before the first `'\n'`, with one
trailing `'\r'` removed when that `'\n'` existed. -/
def firstLineOf (raw : String) : String :=
  if raw.data.contains '\n' then
    let p := raw.data.takeWhile (fun c => c ≠ '\n')
    match p.getLast? with
    | some '\r' => ⟨p.dropLast⟩
    | _ => ⟨p⟩
  else raw

/-- The character loop of `parseCSV`: state is (input, inQuotes, current
field, current row, emitted rows); returns the final (field, row, rows).
Inside quotes a doubled quote appends a literal quote, a single quote closes
the field; outside quotes a quote opens one, the delimiter ends the field,
`'\n'` ends the row, `'\r'` is skipped, and anything else is content. -/
def csvRun (delim : Char) :
    List Char → Bool → List Char → List String → List (List String) →
    List Char × List String × List (List String)
  | [], _, field, row, rows => (field, row, rows)
  | c :: rest, inQ, field, row, rows =>
    if inQ then
      if c = '"' then
        match rest with
        | r2 :: rest2 =>
          if r2 = '"' then csvRun delim rest2 true (field ++ ['"']) row rows
          else csvRun delim (r2 :: rest2) false field row rows
        | [] => csvRun delim [] false field row rows
      else csvRun delim rest true (field ++ [c]) row rows
    else
      if c = '"' then csvRun delim rest true field row rows
      else if c = delim then csvRun delim rest false [] (row ++ [⟨field⟩]) rows
      else if c = '\n' then csvRun delim rest false [] [] (rows ++ [row ++ [⟨field⟩]])
      else if c = '\r' then csvRun delim rest false field row rows
      else csvRun delim rest false (field ++ [c]) row rows

/-- The rows-of-fields produced by `parseCSV`'s loop plus its trailing-row
flush: the final field is pushed, and the final row is kept only when it has
more than one field or a non-empty single field. -/
def parseCSVRows (delim : Char) (cs : List Char) : List (List String) :=
  let res := csvRun delim cs false [] [] []
  let row := res.2.1 ++ [⟨res.1⟩]
  match row with
  | [f] => if f = "" then res.2.2 else res.2.2 ++ [row]
  | _ => res.2.2 ++ [row]

/-- A parsed row mapping (JS object) from column name to value, in key
insertion order. -/
abbrev RawRow := List (String × String)

/-- `obj[k] = v` on a JS object: overwrite in place when the key exists,
else append. -/
def jsObjSet (obj : RawRow) (k v : String) : RawRow :=
  if obj.any (fun e => e.1 = k) then obj.map (fun e => if e.1 = k then (k, v) else e)
  else obj ++ [(k, v)]

/-- `obj[k]`, with `undefined` modelled as `""`. -/
def jsGet (obj : RawRow) (k : String) : String :=
  match obj.find? (fun e => e.1 = k) with
  | some e => e.2
  | none => ""

/-- JS `a || b` on strings (`""` is the only falsy string). -/
def jsOr (a b : String) : String := if a = "" then b else a

/-- Build the row object: `obj[header[c]] = rows[r][c]` positionally for every
header cell; cells beyond the row's length are `undefined` (modelled `""`),
cells beyond the header are dropped. -/
def buildObj : List String → List String → RawRow → RawRow
  | [], _, obj => obj
  | h :: hs, [], obj => buildObj hs [] (jsObjSet obj h "")
  | h :: hs, c :: cs, obj => buildObj hs cs (jsObjSet obj h c)

/-- Source `parseCSV`: strip BOM, detect the delimiter on the first line, run
the quoted-field grammar, use the trimmed first row as header (empty/blank
header gives no rows), convert the remaining rows positionally and drop rows
whose every value is blank. -/
def parseCSV (text : String) : List RawRow :=
  let raw := stripBOM text
  let delim := detectDelimiter (firstLineOf raw)
  let rows := parseCSVRows delim raw.data
  let header := (rows.headD []).map jsTrim
  if header.isEmpty || header.all (fun h => h = "") then []
  else
    (rows.drop 1).filterMap fun cells =>
      let obj := buildObj header cells []
      if obj.any (fun e => jsTrim e.2 ≠ "") then some obj else none

/-! ## Month helpers (`monthFromDateString`, `nextMonth`) -/

/-- The regex `^\d{4}-\d{2}$`. -/
def isCanonicalMonth (t : String) : Bool :=
  match t.data with
  | [a, b, c, d, e, f, g] =>
    a.isDigit && b.isDigit && c.isDigit && d.isDigit && e = '-' && f.isDigit && g.isDigit
  | _ => false

/-- A `\d{4}-\d{2}` match anchored at the current position. -/
def ymAt (l : List Char) : Option String :=
  match l with
  | a :: b :: c :: d :: '-' :: e :: f :: _ =>
    if a.isDigit && b.isDigit && c.isDigit && d.isDigit && e.isDigit && f.isDigit then
      some ⟨[a, b, c, d, '-', e, f]⟩
    else none
  | _ => none

/-- Leftmost match of the regex `(\d{4})-(\d{2})`, rendered `YYYY-MM`. -/
def findYearMonth : List Char → Option String
  | [] => none
  | c :: t =>
    match ymAt (c :: t) with
    | some r => some r
    | none => findYearMonth t

/-- Source `monthFromDateString`: trim; empty gives `""`; a full `YYYY-MM`
match is returned verbatim; else the first embedded `\d{4}-\d{2}` is
extracted; else the host `new Date` parse (abstracted as `dateParse`, giving
`getFullYear` and the 0-based `getMonth`) is formatted
`` `${yyyy}-${String(mm + 1).padStart(2, "0")}` ``; unparseable gives `""`. -/
def monthFromDateString (dateParse : String → Option (Nat × Fin 12)) (s : String) : String :=
  let t := jsTrim s
  if t = "" then ""
  else if isCanonicalMonth t then t
  else
    match findYearMonth t.data with
    | some ym => ym
    | none =>
      match dateParse t with
      | some (y, m) => natRepr y ++ "-" ++ pad2 (m.val + 1)
      | none => ""

/-- Source `nextMonth`: split on `-`, `parseInt` the first two fields, return
`""` when either is `NaN`/`0`/missing, else roll December into January of the
next year and format `` `${ny}-${String(nm).padStart(2, "0")}` ``. -/
def nextMonth (yyyyMm : String) : String :=
  let parts := (splitOnChar '-' yyyyMm.data).map (fun l => jsParseInt ⟨l⟩)
  let y? := (parts.getD 0 none)
  let m? := (parts.getD 1 none)
  match y?, m? with
  | some y, some m =>
    if y = 0 || m = 0 then ""
    else
      let ny := if m = 12 then y + 1 else y
      let nm := if m = 12 then 1 else m + 1
      natRepr ny ++ "-" ++ pad2 nm
  | _, _ => ""

/-! ## Persona catalog and keyword dictionaries -/

/-- One entry of the fixed `PERSONAS` catalog (icon/label/description are
presentation-only and omitted; `key` and `priority` drive the pipeline). -/
structure PersonaEntry where
  key : String
  priority : Nat
deriving DecidableEq, Repr

/-- The fixed catalog, in source order. -/
def PERSONAS : List PersonaEntry :=
  [⟨"trust_erosion", 1⟩, ⟨"emotional", 2⟩, ⟨"escalation", 3⟩, ⟨"reliability", 4⟩,
   ⟨"overload", 5⟩, ⟨"veteran", 6⟩, ⟨"suggestion", 7⟩]

/-- `DEFAULT_KEYWORDS` (object lookup `keywords[p.key] || []` is modelled by
returning `[]` off the seven catalog keys). -/
def DEFAULT_KEYWORDS : String → List String := fun k =>
  if k = "trust_erosion" then
    ["vertrouwen", "betrouwbaar", "onbetrouwbaar", "ik reken hierop", "ik durf niet",
     "kan hier niet op vertrouwen", "onzeker", "voelt niet veilig", "niet veilig"]
  else if k = "veteran" then
    ["al jaren", "dagelijks", "elke rit", "altijd gebruikt", "sinds het begin",
     "onderdeel van mijn routine", "ik ben afhankelijk", "afhankelijk", "routine"]
  else if k = "reliability" then
    ["onvoorspelbaar", "inconsistent", "werkt soms", "soms wel", "soms niet",
     "wisselend", "niet consequent", "foutmeldingen", "valt uit", "crash", "loopt vast"]
  else if k = "escalation" then
    ["weer", "opnieuw", "al vaker gemeld", "niet de eerste keer", "al meerdere keren",
     "nog steeds", "al eens", "al gemeld"]
  else if k = "overload" then
    ["ik snap niet waarom", "onduidelijk", "logica ontbreekt", "waarom doet hij dit",
     "niet uit te leggen", "tegenstrijdig", "klopt niet"]
  else if k = "emotional" then
    ["frustrerend", "klaar mee", "irritant", "teleurgesteld", "dit werkt zo niet",
     "zo wordt het lastig", "word ik gek van"]
  else if k = "suggestion" then
    ["zou handig zijn", "misschien kunnen jullie", "ik mis", "ik vraag me af waarom",
     "zou fijn zijn", "kunnen jullie", "idee:"]
  else []

/-- The keyword-editor input path: `value.split(",").map(x => x.trim()).filter(Boolean)`. -/
def parseKeywordsInput (s : String) : List String :=
  (((splitOnChar ',' s.data).map (fun l => jsTrim ⟨l⟩)).filter (fun x => x ≠ ""))

/-! ## Persona classifier (`classifyDominantPersona`) -/

/-- The per-persona flags: some keyword of the persona occurs (case-insensitive
substring) in the text.  The source stores flags in an object keyed by the
seven catalog keys; the function is only ever applied to those keys. -/
def flagsFor (text : String) (keywords : String → List String) : String → Bool :=
  fun key => (keywords key).any (fun kw => strIncludes (norm text) (norm kw))

/-- `[...PERSONAS].sort((a, b) => a.priority - b.priority)`. -/
def sortedPersonas : List PersonaEntry :=
  List.insertionSort (fun a b => a.priority ≤ b.priority) PERSONAS

/-- Source `classifyDominantPersona`: if no flag is set the persona is `none`;
otherwise the first flagged persona of the priority-sorted catalog. -/
def classifyDominantPersona (text : String) (keywords : String → List String) :
    Option String × (String → Bool) :=
  let flags := flagsFor text keywords
  if PERSONAS.any (fun p => flags p.key) then
    ((sortedPersonas.find? (fun p => flags p.key)).map (fun p => p.key), flags)
  else (none, flags)

/-! ## Schema normalizer (`pickSuggestionText`, `userMonthRows`) -/

/-- The exact survey-export header tried first by `pickSuggestionText`. -/
def TYPEFORM_HEADER : String :=
  "Beschrijf je suggestie hieronder zo duidelijk mogelijk. Heb j... voordeel kan zijn voor je medegebruikers? Laat dit dan weten."

/-- Source `pickSuggestionText`: exact known header if non-blank; else the
first column whose (lower-cased) name contains `beschrijf`/`suggestie` and
whose value is non-blank; else the second column when at least two exist;
else `obj.text || obj.message || obj.body || ""`. -/
def pickSuggestionText (obj : RawRow) : String :=
  let exact := jsGet obj TYPEFORM_HEADER
  if exact ≠ "" && jsTrim exact ≠ "" then exact
  else
    match obj.find? (fun e =>
        (strIncludes (jsToLower e.1) "beschrijf" || strIncludes (jsToLower e.1) "suggestie") &&
        e.2 ≠ "" && jsTrim e.2 ≠ "") with
    | some e => e.2
    | none =>
      match obj.get? 1 with
      | some e => e.2
      | none => jsOr (jsGet obj "text") (jsOr (jsGet obj "message") (jsGet obj "body"))

/-- One normalized user-month record before retention resolution;
`active_next_month` is the raw string (`""` = unresolved). -/
structure UserMonthRow where
  user_id : String
  month : String
  text : String
  active_next_month : String
deriving DecidableEq, Repr

/-- The per-row mapping step of `userMonthRows` (`null` for rows dropped for a
missing `user_id` or unparseable month). -/
def toUserMonthRow (dateParse : String → Option (Nat × Fin 12)) (hasMonth : Bool)
    (r : RawRow) : Option UserMonthRow :=
  let user_id := jsTrim (jsOr (jsGet r "user_id") (jsOr (jsGet r "userid") (jsOr (jsGet r "user")
    (jsOr (jsGet r "Network ID") (jsGet r "network_id")))))
  let text := pickSuggestionText r
  let month :=
    if hasMonth then monthFromDateString dateParse (jsGet r "month")
    else monthFromDateString dateParse (jsOr (jsGet r "created_at") (jsGet r "Start Date (UTC)"))
  let anm := jsTrim (jsGet r "active_next_month")
  if user_id = "" || month = "" then none
  else some { user_id := user_id, month := month, text := text, active_next_month := anm }

/-- The composite `Map` key `` `${user_id}__${month}` ``. -/
def umKey (u m : String) : String := u ++ "__" ++ m

/-- The in-place merge of one more raw row into an existing user-month
accumulator: texts concatenate with `"\n"` once the accumulator is non-empty,
and a non-empty explicit `active_next_month` takes precedence. -/
def mergeInto (cur r : UserMonthRow) : UserMonthRow :=
  { cur with
    text := (if cur.text ≠ "" then cur.text ++ "\n" else "") ++ r.text,
    active_next_month :=
      if r.active_next_month ≠ "" then r.active_next_month else cur.active_next_month }

/-- One step of the user-month aggregation `Map`: merge into the existing
entry for the row's key, or append a fresh entry (initialized with empty text,
then merged, exactly as in the source). -/
def mergeStep (acc : List (String × UserMonthRow)) (r : UserMonthRow) :
    List (String × UserMonthRow) :=
  let key := umKey r.user_id r.month
  if acc.any (fun e => e.1 = key) then
    acc.map (fun e => if e.1 = key then (e.1, mergeInto e.2 r) else e)
  else
    acc ++ [(key, mergeInto
      { user_id := r.user_id, month := r.month, text := "",
        active_next_month := r.active_next_month } r)]

/-- The comparator of the final sort: month ascending, then `user_id`
(`a.month === b.month ? a.user_id.localeCompare(b.user_id) :
a.month.localeCompare(b.month)`). -/
def umrLE (a b : UserMonthRow) : Prop :=
  (if a.month = b.month then lexLe a.user_id b.user_id else lexLe a.month b.month) = true

instance : DecidableRel umrLE := fun a b => by unfold umrLE; infer_instance

/-- The normalized rows before user-month merging (the `.map(...).filter(Boolean)`
stage of `userMonthRows`). -/
def preMergeRows (dateParse : String → Option (Nat × Fin 12)) (rawRows : List RawRow) :
    List UserMonthRow :=
  match rawRows with
  | [] => []
  | r0 :: _ =>
    let hasMonth := (r0.map (fun e => e.1)).contains "month"
    rawRows.filterMap (toUserMonthRow dateParse hasMonth)

/-- Source `userMonthRows`: normalize each raw row, drop incomplete ones,
merge per `(user_id, month)` key in encounter order, and sort by month then
user. -/
def userMonthRowsOf (dateParse : String → Option (Nat × Fin 12)) (rawRows : List RawRow) :
    List UserMonthRow :=
  List.insertionSort umrLE
    (((preMergeRows dateParse rawRows).foldl mergeStep []).map (fun e => e.2))

/-! ## Retention resolver and classification of records -/

/-- A record after classification: the raw `active_next_month` string has been
replaced by the resolved boolean, as in the source spread. -/
structure ClassifiedRecord where
  user_id : String
  month : String
  text : String
  dominant_persona : Option String
  flags : String → Bool
  active_next_month : Bool

/-- Resolve `active_next_month`: non-empty explicit values are true exactly on
(lower-cased) `1/true/yes/y`; otherwise presence of the same user's
next-month key in the presence index decides. -/
def resolveActiveNext (pres : List String) (r : UserMonthRow) : Bool :=
  if r.active_next_month ≠ "" then
    ["1", "true", "yes", "y"].contains (norm r.active_next_month)
  else pres.contains (umKey r.user_id (nextMonth r.month))

/-- Classify one normalized record. -/
def classifyRecord (keywords : String → List String) (pres : List String)
    (r : UserMonthRow) : ClassifiedRecord :=
  let c := classifyDominantPersona r.text keywords
  { user_id := r.user_id, month := r.month, text := r.text,
    dominant_persona := c.1, flags := c.2, active_next_month := resolveActiveNext pres r }

/-- The presence index: the `` `${user_id}__${month}` `` keys of all
normalized records. -/
def presenceKeys (rows : List UserMonthRow) : List String :=
  rows.map (fun r => umKey r.user_id r.month)

/-- The `classified` list of the source's `computed` memo. -/
def classifyAll (keywords : String → List String)
    (dateParse : String → Option (Nat × Fin 12)) (rawRows : List RawRow) :
    List ClassifiedRecord :=
  let umr := userMonthRowsOf dateParse rawRows
  umr.map (classifyRecord keywords (presenceKeys umr))

/-! ## Aggregator (`computed`: month×persona buckets, deltas) -/

/-- One `(month, persona)` accumulator of the `agg` map, with JS `Set`s
modelled as dedup-on-insert lists. -/
structure Bucket where
  month : String
  persona : String
  users : List String
  retainedUsers : List String
  churnedUsers : List String
deriving DecidableEq, Repr

/-- `Set.add`. -/
def setAdd (l : List String) (x : String) : List String := if x ∈ l then l else l ++ [x]

/-- Add one contributing record to a bucket. -/
def addToBucket (b : Bucket) (u : String) (act : Bool) : Bucket :=
  { b with
    users := setAdd b.users u,
    retainedUsers := if act then setAdd b.retainedUsers u else b.retainedUsers,
    churnedUsers := if act then b.churnedUsers else setAdd b.churnedUsers u }

/-- The `agg` map key `` `${month}__${persona}` ``. -/
def bucketKey (m p : String) : String := m ++ "__" ++ p

/-- `ensure(month, persona)` followed by the three `Set` additions. -/
def ensureAdd (aggs : List Bucket) (m p u : String) (act : Bool) : List Bucket :=
  if aggs.any (fun b => bucketKey b.month b.persona = bucketKey m p) then
    aggs.map (fun b =>
      if bucketKey b.month b.persona = bucketKey m p then addToBucket b u act else b)
  else
    aggs ++ [addToBucket
      { month := m, persona := p, users := [], retainedUsers := [],
        churnedUsers := [] } u act]

/-- The personas a record contributes to: its dominant persona (or none) in
`dominant` mode, every flagged persona in `multi` mode. -/
def personasToCount (mode : String) (r : ClassifiedRecord) : List String :=
  if mode = "dominant" then
    match r.dominant_persona with
    | some p => [p]
    | none => []
  else (PERSONAS.map (fun p => p.key)).filter (fun k => r.flags k)

/-- One elementary bucket contribution: (month, persona, user, resolved
`active_next_month`). -/
def Contribution := String × String × String × Bool

/-- The contributions of one record. -/
def opsOf (mode : String) (r : ClassifiedRecord) : List Contribution :=
  (personasToCount mode r).map (fun p => (r.month, p, r.user_id, r.active_next_month))

/-- Apply a list of contributions to the bucket map. -/
def applyOps (aggs : List Bucket) (ops : List Contribution) : List Bucket :=
  ops.foldl (fun a o => ensureAdd a o.1 o.2.1 o.2.2.1 o.2.2.2) aggs

/-- The bucket-building loop over all classified records. -/
def aggregateRecords (mode : String) (cl : List ClassifiedRecord) : List Bucket :=
  cl.foldl (fun aggs r => applyOps aggs (opsOf mode r)) []

/-- One emitted aggregate row (MoM deltas `none` until the delta pass). -/
structure AggRow where
  month : String
  persona : String
  users : Nat
  retained : Nat
  churned : Nat
  retention : ℚ
  retention_mom : Option ℚ
  users_mom : Option Int
deriving DecidableEq, Repr

/-- Turn a bucket into its emitted row: `Set` sizes and
`retention = users ? retained / users : 0`. -/
def bucketToRow (b : Bucket) : AggRow :=
  let users := b.users.length
  let retained := b.retainedUsers.length
  let churned := b.churnedUsers.length
  { month := b.month, persona := b.persona, users := users, retained := retained,
    churned := churned,
    retention := if users = 0 then 0 else (retained : ℚ) / (users : ℚ),
    retention_mom := none, users_mom := none }

/-- The `rows` list of `computed` (aggregates before deltas, in `agg`-map
insertion order). -/
def aggRowsOf (mode : String) (keywords : String → List String)
    (dateParse : String → Option (Nat × Fin 12)) (rawRows : List RawRow) : List AggRow :=
  (aggregateRecords mode (classifyAll keywords dateParse rawRows)).map bucketToRow

/-- One step of the `byPersona` grouping map. -/
def groupStep (acc : List (String × List AggRow)) (r : AggRow) :
    List (String × List AggRow) :=
  if acc.any (fun e => e.1 = r.persona) then
    acc.map (fun e => if e.1 = r.persona then (e.1, e.2 ++ [r]) else e)
  else acc ++ [(r.persona, [r])]

/-- `byPersona`: group rows by persona in encounter order. -/
def groupByPersona (rows : List AggRow) : List (String × List AggRow) :=
  rows.foldl groupStep []

/-- The per-persona comparator `a.month.localeCompare(b.month)`. -/
def aggLE (a b : AggRow) : Prop := lexLe a.month b.month = true

instance : DecidableRel aggLE := fun a b => by unfold aggLE; infer_instance

/-- Sort one persona's aggregates by month ascending. -/
def sortByMonth (l : List AggRow) : List AggRow := List.insertionSort aggLE l

/-- The in-place delta loop: `arr[i].retention_mom = prev ? arr[i].retention -
prev.retention : null` (and likewise `users_mom`), where `prev = arr[i-1]`. -/
def deltaChain : Option AggRow → List AggRow → List AggRow
  | _, [] => []
  | prev, a :: rest =>
    { a with
      retention_mom := prev.map (fun p => a.retention - p.retention),
      users_mom := prev.map (fun p => (a.users : Int) - (p.users : Int)) } ::
    deltaChain (some a) rest

/-- `outRows`: per-persona month-sorted aggregates with MoM deltas, flattened
in persona encounter order. -/
def outRowsOf (mode : String) (keywords : String → List String)
    (dateParse : String → Option (Nat × Fin 12)) (rawRows : List RawRow) : List AggRow :=
  ((groupByPersona (aggRowsOf mode keywords dateParse rawRows)).map
    (fun g => deltaChain none (sortByMonth g.2))).flatten

/-- The newline-join of a list of strings, as the spec words it. -/
def joinNL : List String → String
  | [] => ""
  | [t] => t
  | t :: ts => t ++ "\n" ++ joinNL ts

/-- The text-accumulation step of the user-month merge: append with a `"\n"`
separator once the accumulator is non-empty. -/
def jfStep (acc t : String) : String := (if acc ≠ "" then acc ++ "\n" else "") ++ t

/-- Folding the text-accumulation step from a given initial accumulator. -/
def joinFrom (init : String) (ts : List String) : String := ts.foldl jfStep init

/-- The texts of the rows of `l` whose user-month key is `k`, in order. -/
def textsOfKey (k : String) (l : List UserMonthRow) : List String :=
  (l.filter (fun r => umKey r.user_id r.month = k)).map (fun r => r.text)

/-- The standard CSV quoting scheme on the content of a field: each embedded
double quote is doubled (the field is then wrapped in double quotes). -/
def escapeQuotes : List Char → List Char
  | [] => []
  | c :: t => if c = '"' then '"' :: '"' :: escapeQuotes t else c :: escapeQuotes t

/-- The resolved `active_next_month` of the (unique) record of `cl` for a
given user and month (`false` when there is none); used to state the
bucket-partition invariant. -/
def actOf (cl : List ClassifiedRecord) (u m : String) : Bool :=
  match cl.find? (fun r => r.user_id = u && r.month = m) with
  | some r => r.active_next_month
  | none => false

/-- The partition invariant of one aggregation bucket, relative to an
assignment `act` of resolved retention per (user, month): the retained and
churned user sets partition the user set according to `act`. -/
def BInv (act : String → String → Bool) (b : Bucket) : Prop :=
  b.users.Nodup ∧ b.retainedUsers.Nodup ∧ b.churnedUsers.Nodup ∧
  (∀ u, u ∈ b.retainedUsers ↔ u ∈ b.users ∧ act u b.month = true) ∧
  (∀ u, u ∈ b.churnedUsers ↔ u ∈ b.users ∧ act u b.month = false)

/-- The texts of the raw (pre-merge) normalized rows contributing to the
user-month group of `u`/`m`, in encounter order. -/
def contributingTexts (dateParse : String → Option (Nat × Fin 12))
    (rawRows : List RawRow) (u m : String) : List String :=
  ((preMergeRows dateParse rawRows).filter
    (fun r => umKey r.user_id r.month = umKey u m)).map (fun r => r.text)

/-- A trivial `dateParse` (never parses); the concrete claims below only use
canonical `YYYY-MM` months, which never reach the `Date` branch. -/
def dp0 : String → Option (Nat × Fin 12) := fun _ => none

/-! ## Infrastructure lemmas: strings, digits, keys -/

theorem lexLeL_total (x y : List Char) : lexLeL x y = true ∨ lexLeL y x = true := by
  induction x generalizing y with
  | nil => left; rfl
  | cons a t ih =>
    cases y with
    | nil => right; rfl
    | cons b s =>
      by_cases hab : a = b
      · subst hab
        rcases ih s with h | h
        · left; simpa [lexLeL] using h
        · right; simpa [lexLeL] using h
      · rcases lt_or_gt_of_ne hab with hlt | hgt
        · left; simp [lexLeL, hab, hlt]
        · right; simp [lexLeL, Ne.symm hab, hgt]

theorem lexLeL_trans {x y z : List Char} (h1 : lexLeL x y = true) (h2 : lexLeL y z = true) :
    lexLeL x z = true := by
  induction x generalizing y z with
  | nil => rfl
  | cons a t ih =>
    cases y with
    | nil => simp [lexLeL] at h1
    | cons b s =>
      cases z with
      | nil => simp [lexLeL] at h2
      | cons c u =>
        by_cases hab : a = b <;> by_cases hbc : b = c
        · subst hab; subst hbc
          simp only [lexLeL, if_pos rfl] at h1 h2 ⊢
          exact ih h1 h2
        · subst hab
          simp only [lexLeL, if_pos rfl, if_neg hbc] at h1 h2 ⊢
          exact h2
        · subst hbc
          simp only [lexLeL, if_pos rfl, if_neg hab] at h1 h2 ⊢
          exact h1
        · simp only [lexLeL, if_neg hab, if_neg hbc, decide_eq_true_eq] at h1 h2
          have hac : a < c := lt_trans h1 h2
          simp [lexLeL, ne_of_lt hac, hac]

theorem string_eq_iff_data {s t : String} : s = t ↔ s.data = t.data :=
  ⟨fun h => h ▸ rfl, String.ext⟩

/-- Splitting at a separator character is unambiguous when neither left part
contains the separator. -/
theorem sep_split_eq {t1 t2 a b : List Char} (h1 : '_' ∉ t1) (h2 : '_' ∉ t2)
    (h : t1 ++ '_' :: a = t2 ++ '_' :: b) : t1 = t2 ∧ a = b := by
  induction t1 generalizing t2 with
  | nil =>
    cases t2 with
    | nil => simpa using h
    | cons c s =>
      exfalso
      simp only [List.nil_append, List.cons_append, List.cons.injEq] at h
      exact h2 (h.1 ▸ List.mem_cons_self c s)
  | cons c s ih =>
    cases t2 with
    | nil =>
      exfalso
      simp only [List.cons_append, List.nil_append, List.cons.injEq] at h
      exact h1 (h.1 ▸ List.mem_cons_self c s)
    | cons d u =>
      simp only [List.cons_append, List.cons.injEq] at h
      obtain ⟨hcd, htail⟩ := h
      have := ih (fun hm => h1 (List.mem_cons_of_mem c hm))
        (fun hm => h2 (List.mem_cons_of_mem d hm)) htail
      exact ⟨by rw [hcd, this.1], this.2⟩

theorem umKey_data (u m : String) : (umKey u m).data = u.data ++ '_' :: '_' :: m.data := by
  show (u ++ "__" ++ m).data = _
  rw [String.data_append, String.data_append, List.append_assoc]
  rfl

theorem bucketKey_data (m p : String) : (bucketKey m p).data = m.data ++ '_' :: '_' :: p.data := by
  show (m ++ "__" ++ p).data = _
  rw [String.data_append, String.data_append, List.append_assoc]
  rfl

/-- `` `${user}__${month}` `` keys are injective when months contain no
underscore. -/
theorem umKey_inj {u1 m1 u2 m2 : String} (h1 : '_' ∉ m1.data) (h2 : '_' ∉ m2.data) :
    umKey u1 m1 = umKey u2 m2 ↔ u1 = u2 ∧ m1 = m2 := by
  constructor
  · intro h
    rw [string_eq_iff_data, umKey_data, umKey_data] at h
    have h' := congrArg List.reverse h
    simp only [List.reverse_append, List.reverse_cons, List.append_assoc, List.nil_append] at h'
    have h'' : m1.data.reverse ++ '_' :: '_' :: u1.data.reverse =
        m2.data.reverse ++ '_' :: '_' :: u2.data.reverse := by
      simpa using h'
    have := sep_split_eq (by simpa using h1) (by simpa using h2) h''
    obtain ⟨hm, hrest⟩ := this
    have hu : u1.data.reverse = u2.data.reverse := by simpa using hrest
    constructor
    · exact string_eq_iff_data.2 (by simpa using congrArg List.reverse hu)
    · exact string_eq_iff_data.2 (by simpa using congrArg List.reverse hm)
  · rintro ⟨rfl, rfl⟩; rfl

/-- `` `${month}__${persona}` `` keys are injective when months contain no
underscore. -/
theorem bucketKey_inj {m1 p1 m2 p2 : String} (h1 : '_' ∉ m1.data) (h2 : '_' ∉ m2.data) :
    bucketKey m1 p1 = bucketKey m2 p2 ↔ m1 = m2 ∧ p1 = p2 := by
  constructor
  · intro h
    rw [string_eq_iff_data, bucketKey_data, bucketKey_data] at h
    have := sep_split_eq h1 h2 h
    obtain ⟨hm, hrest⟩ := this
    exact ⟨string_eq_iff_data.2 hm, string_eq_iff_data.2 (by simpa using hrest)⟩
  · rintro ⟨rfl, rfl⟩; rfl

/-- The ten digit characters. -/
theorem digit_props {c : Char} (h : c ∈ ['0', '1', '2', '3', '4', '5', '6', '7', '8', '9']) :
    c.isDigit = true ∧ jsIsWs c = false ∧ c ≠ '_' ∧ c ≠ '-' ∧ c ≠ '+' := by
  fin_cases h <;> exact ⟨rfl, rfl, by decide, by decide, by decide⟩

theorem digitChar_mem {n : Nat} (h : n < 10) :
    digitChar n ∈ ['0', '1', '2', '3', '4', '5', '6', '7', '8', '9'] := by
  interval_cases n <;> decide

theorem natReprAux_mem {fuel n : Nat} :
    ∀ c ∈ natReprAux fuel n, c ∈ ['0', '1', '2', '3', '4', '5', '6', '7', '8', '9'] := by
  induction fuel generalizing n with
  | zero => intro c hc; simp [natReprAux] at hc
  | succ fuel ih =>
    intro c hc
    by_cases h : n < 10
    · simp only [natReprAux, if_pos h, List.mem_singleton] at hc
      exact hc ▸ digitChar_mem h
    · simp only [natReprAux, if_neg h, List.mem_append, List.mem_singleton] at hc
      rcases hc with hc | hc
      · exact ih _ hc
      · exact hc ▸ digitChar_mem (Nat.mod_lt _ (by norm_num))

theorem natRepr_mem {n : Nat} :
    ∀ c ∈ (natRepr n).data, c ∈ ['0', '1', '2', '3', '4', '5', '6', '7', '8', '9'] :=
  natReprAux_mem

theorem natReprAux_ne_nil {fuel n : Nat} (h : 0 < fuel) : natReprAux fuel n ≠ [] := by
  cases fuel with
  | zero => omega
  | succ fuel =>
    by_cases h10 : n < 10
    · simp [natReprAux, if_pos h10]
    · simp [natReprAux, if_neg h10]

theorem digitVal_digitChar {n : Nat} (h : n < 10) : digitVal (digitChar n) = n := by
  interval_cases n <;> decide

theorem valOfDigits_append (l : List Char) (c : Char) :
    valOfDigits (l ++ [c]) = 10 * valOfDigits l + digitVal c := by
  unfold valOfDigits
  rw [List.foldl_append]
  rfl

theorem valOfDigits_natReprAux {fuel n : Nat} (h : n < fuel) :
    valOfDigits (natReprAux fuel n) = n := by
  induction fuel generalizing n with
  | zero => omega
  | succ fuel ih =>
    by_cases h10 : n < 10
    · simp only [natReprAux, if_pos h10]
      interval_cases n <;> decide
    · simp only [natReprAux, if_neg h10]
      rw [valOfDigits_append]
      have hpos : 0 < n := by omega
      have hdivlt : n / 10 < n := Nat.div_lt_self hpos (by norm_num)
      have hdiv : n / 10 < fuel := by omega
      rw [ih hdiv, digitVal_digitChar (Nat.mod_lt _ (by norm_num))]
      omega

theorem takeWhile_all {p : Char → Bool} {l : List Char} (h : ∀ c ∈ l, p c = true) :
    l.takeWhile p = l := by
  induction l with
  | nil => rfl
  | cons c t ih =>
    rw [List.takeWhile_cons, if_pos (h c (List.mem_cons_self c t))]
    rw [ih (fun x hx => h x (List.mem_cons_of_mem c hx))]

/-- `jsParseInt` on a non-empty pure-digit string is its decimal value. -/
theorem jsParseInt_digits {c : Char} {t : List Char}
    (h : ∀ x ∈ c :: t, x ∈ ['0', '1', '2', '3', '4', '5', '6', '7', '8', '9']) :
    jsParseInt ⟨c :: t⟩ = some (valOfDigits (c :: t)) := by
  have hc := digit_props (h c (List.mem_cons_self c t))
  have hdrop : (c :: t).dropWhile jsIsWs = c :: t := by
    rw [List.dropWhile_cons, if_neg (by simp [hc.2.1])]
  have hhead : ¬((c :: t).head? = some '+') := by
    simp only [List.head?_cons, Option.some.injEq]
    exact hc.2.2.2.2
  have htake : (c :: t).takeWhile Char.isDigit = c :: t :=
    takeWhile_all (fun x hx => (digit_props (h x hx)).1)
  show jsParseInt ⟨c :: t⟩ = _
  unfold jsParseInt
  show (let l := (c :: t).dropWhile jsIsWs
        let l := if l.head? = some '+' then l.tail else l
        let ds := l.takeWhile Char.isDigit
        if ds.isEmpty then none else some (valOfDigits ds)) = _
  rw [hdrop]
  simp only [if_neg hhead]
  rw [htake]
  simp

theorem jsParseInt_natRepr (n : Nat) : jsParseInt (natRepr n) = some n := by
  have hnil : (natRepr n).data ≠ [] := natReprAux_ne_nil (Nat.succ_pos n)
  obtain ⟨c, t, hct⟩ := List.exists_cons_of_ne_nil hnil
  have hval : valOfDigits (natRepr n).data = n := valOfDigits_natReprAux (Nat.lt_succ_self n)
  have hrepr : natRepr n = ⟨c :: t⟩ := by
    rw [← hct]
  rw [hrepr]
  rw [jsParseInt_digits (by rw [← hct] at *; exact fun x hx => natRepr_mem x hx)]
  rw [show valOfDigits (c :: t) = n from by rw [← hct] at *; exact hval]

theorem valOfDigits_zero_cons (l : List Char) : valOfDigits ('0' :: l) = valOfDigits l := rfl

theorem pad2_data (n : Nat) :
    (pad2 n).data = if n < 10 then '0' :: (natRepr n).data else (natRepr n).data := by
  by_cases h : n < 10
  · simp only [pad2, if_pos h]
    rw [String.data_append]
    rfl
  · simp only [pad2, if_neg h]

theorem pad2_mem {n : Nat} :
    ∀ c ∈ (pad2 n).data, c ∈ ['0', '1', '2', '3', '4', '5', '6', '7', '8', '9'] := by
  intro c hc
  rw [pad2_data] at hc
  by_cases h : n < 10
  · rw [if_pos h] at hc
    rcases List.mem_cons.1 hc with rfl | hc
    · decide
    · exact natRepr_mem c hc
  · rw [if_neg h] at hc
    exact natRepr_mem c hc

theorem jsParseInt_pad2 (n : Nat) : jsParseInt (pad2 n) = some n := by
  by_cases h : n < 10
  · have hdata : (pad2 n).data = '0' :: (natRepr n).data := by rw [pad2_data, if_pos h]
    have hpad : pad2 n = ⟨'0' :: (natRepr n).data⟩ := by
      rw [← hdata]
    rw [hpad]
    rw [jsParseInt_digits (by
      intro x hx
      rcases List.mem_cons.1 hx with rfl | hx
      · decide
      · exact natRepr_mem x hx)]
    rw [valOfDigits_zero_cons]
    rw [show valOfDigits (natRepr n).data = n from valOfDigits_natReprAux (Nat.lt_succ_self n)]
  · simp only [pad2, if_neg h]
    exact jsParseInt_natRepr n

theorem splitOnChar_cons (sep c : Char) (l : List Char) :
    splitOnChar sep (c :: l) =
      (match splitOnChar sep l with
       | [] => if c = sep then [[], []] else [[c]]
       | a :: rest => if c = sep then [] :: a :: rest else (c :: a) :: rest) := rfl

theorem splitOnChar_ne_nil (sep : Char) (l : List Char) : splitOnChar sep l ≠ [] := by
  induction l with
  | nil => simp [splitOnChar]
  | cons c t ih =>
    rw [splitOnChar_cons]
    obtain ⟨a, rest, ha⟩ := List.exists_cons_of_ne_nil ih
    rw [ha]
    by_cases hc : c = sep <;> simp [hc]

theorem splitOnChar_no_sep {sep : Char} {l : List Char} (h : sep ∉ l) :
    splitOnChar sep l = [l] := by
  induction l with
  | nil => rfl
  | cons c t ih =>
    have hc : c ≠ sep := by
      intro hcc
      exact h (by rw [← hcc]; exact List.mem_cons_self c t)
    rw [splitOnChar_cons, ih (fun hm => h (List.mem_cons_of_mem c hm))]
    simp [hc]

theorem splitOnChar_sep_append {sep : Char} {a b : List Char} (ha : sep ∉ a) :
    splitOnChar sep (a ++ sep :: b) = a :: splitOnChar sep b := by
  induction a with
  | nil =>
    rw [List.nil_append, splitOnChar_cons]
    obtain ⟨x, rest, hx⟩ := List.exists_cons_of_ne_nil (splitOnChar_ne_nil sep b)
    rw [hx]
    simp
  | cons c t ih =>
    have hc : c ≠ sep := by
      intro hcc
      exact ha (by rw [← hcc]; exact List.mem_cons_self c t)
    rw [List.cons_append, splitOnChar_cons, ih (fun hm => ha (List.mem_cons_of_mem c hm))]
    simp [hc]

theorem string_mk_data (s : String) : (⟨s.data⟩ : String) = s := rfl

/-- `nextMonth` on a canonical month string with a no-leading-zero year is the
calendar successor (December rolls into January of the next year). -/
theorem nextMonth_canonical {y m : Nat} (hy : 0 < y) (hm1 : 1 ≤ m) (hm2 : m ≤ 12) :
    nextMonth (natRepr y ++ "-" ++ pad2 m) =
      if m = 12 then natRepr (y + 1) ++ "-" ++ pad2 1 else natRepr y ++ "-" ++ pad2 (m + 1) := by
  unfold nextMonth
  have hdata : (natRepr y ++ "-" ++ pad2 m).data = (natRepr y).data ++ '-' :: (pad2 m).data := by
    rw [String.data_append, String.data_append, List.append_assoc]
    rfl
  have hy' : '-' ∉ (natRepr y).data := fun hm' => (digit_props (natRepr_mem _ hm')).2.2.2.1 rfl
  have hm' : '-' ∉ (pad2 m).data := by
    intro hmm
    by_cases h10 : m < 10
    · unfold pad2 at hmm
      rw [if_pos h10] at hmm
      have : ("0" ++ natRepr m).data = '0' :: (natRepr m).data := by rw [String.data_append]; rfl
      rw [this] at hmm
      rcases List.mem_cons.1 hmm with h | h
      · exact absurd h (by decide)
      · exact (digit_props (natRepr_mem _ h)).2.2.2.1 rfl
    · unfold pad2 at hmm
      rw [if_neg h10] at hmm
      exact (digit_props (natRepr_mem _ hmm)).2.2.2.1 rfl
  rw [hdata, splitOnChar_sep_append hy', splitOnChar_no_sep hm']
  simp only [List.map_cons, List.map_nil, List.getD_cons_zero, List.getD_cons_succ]
  rw [string_mk_data, string_mk_data, jsParseInt_natRepr, jsParseInt_pad2]
  have hy0 : ¬(y = 0) := by omega
  have hm0 : ¬(m = 0) := by omega
  simp only [hy0, hm0, Bool.or_self, decide_False, Bool.false_or, if_false]
  by_cases h12 : m = 12
  · subst h12; simp
  · simp [h12]

/-! ## Shape of normalized month strings -/

theorem isDigit_ne_underscore {c : Char} (h : c.isDigit = true) : c ≠ '_' := by
  intro hc
  rw [hc] at h
  exact absurd h (by decide)

theorem isCanonicalMonth_no_underscore {t : String} (h : isCanonicalMonth t = true) :
    '_' ∉ t.data := by
  unfold isCanonicalMonth at h
  split at h
  · next a b c d e f g heq =>
    simp only [Bool.and_eq_true, decide_eq_true_eq] at h
    rw [heq]
    intro hm
    simp only [List.mem_cons, List.not_mem_nil, or_false] at hm
    rcases hm with rfl | rfl | rfl | rfl | rfl | rfl | rfl
    · exact isDigit_ne_underscore h.1.1.1.1.1.1 rfl
    · exact isDigit_ne_underscore h.1.1.1.1.1.2 rfl
    · exact isDigit_ne_underscore h.1.1.1.1.2 rfl
    · exact isDigit_ne_underscore h.1.1.1.2 rfl
    · exact absurd h.1.1.2 (by decide)
    · exact isDigit_ne_underscore h.1.2 rfl
    · exact isDigit_ne_underscore h.2 rfl
  · exact absurd h (by simp)

theorem ymAt_no_underscore {l : List Char} {r : String} (h : ymAt l = some r) :
    '_' ∉ r.data := by
  unfold ymAt at h
  split at h
  · next a b c d e f rest =>
    split at h
    · next hd =>
      simp only [Option.some.injEq] at h
      simp only [Bool.and_eq_true] at hd
      rw [← h]
      intro hm
      simp only [List.mem_cons, List.not_mem_nil, or_false] at hm
      rcases hm with rfl | rfl | rfl | rfl | h5 | rfl | rfl
      · exact isDigit_ne_underscore hd.1.1.1.1.1 rfl
      · exact isDigit_ne_underscore hd.1.1.1.1.2 rfl
      · exact isDigit_ne_underscore hd.1.1.1.2 rfl
      · exact isDigit_ne_underscore hd.1.1.2 rfl
      · exact absurd h5 (by decide)
      · exact isDigit_ne_underscore hd.1.2 rfl
      · exact isDigit_ne_underscore hd.2 rfl
    · exact absurd h (by simp)
  · exact absurd h (by simp)

theorem findYearMonth_no_underscore {l : List Char} {r : String}
    (h : findYearMonth l = some r) : '_' ∉ r.data := by
  induction l with
  | nil => exact absurd h (by simp [findYearMonth])
  | cons c t ih =>
    unfold findYearMonth at h
    split at h
    · next r' hy =>
      simp only [Option.some.injEq] at h
      exact h ▸ ymAt_no_underscore hy
    · exact ih h

theorem formatted_no_underscore (y k : Nat) : '_' ∉ (natRepr y ++ "-" ++ pad2 k).data := by
  intro hm
  rw [String.data_append, String.data_append] at hm
  rcases List.mem_append.1 hm with hm | hm
  · rcases List.mem_append.1 hm with hm | hm
    · exact (digit_props (natRepr_mem _ hm)).2.2.1 rfl
    · exact absurd hm (by decide)
  · exact (digit_props (pad2_mem _ hm)).2.2.1 rfl

theorem mfds_no_underscore (dp : String → Option (Nat × Fin 12)) (s : String) :
    '_' ∉ (monthFromDateString dp s).data := by
  unfold monthFromDateString
  by_cases h1 : jsTrim s = ""
  · simp [h1]
  · rw [if_neg h1]
    by_cases h2 : isCanonicalMonth (jsTrim s) = true
    · rw [if_pos h2]
      exact isCanonicalMonth_no_underscore h2
    · rw [if_neg h2]
      cases hf : findYearMonth (jsTrim s).data with
      | some ym =>
        simp only [hf]
        exact findYearMonth_no_underscore hf
      | none =>
        simp only [hf]
        cases hdp : dp (jsTrim s) with
        | none => simp [hdp]
        | some ym =>
          simp only [hdp]
          exact formatted_no_underscore ym.1 (ym.2.val + 1)

theorem nextMonth_no_underscore (s : String) : '_' ∉ (nextMonth s).data := by
  unfold nextMonth
  dsimp only
  split
  · split
    · simp
    · exact formatted_no_underscore _ _
  · simp

/-! ## Structure of the user-month merge -/

theorem mergeInto_user (cur r : UserMonthRow) : (mergeInto cur r).user_id = cur.user_id := rfl

theorem mergeInto_month (cur r : UserMonthRow) : (mergeInto cur r).month = cur.month := rfl

/-- Provenance of merged entries: each entry of the fold either descends from
an initial entry (same key, user and month) or from some input row. -/
theorem mergeFold_prov :
    ∀ (l : List UserMonthRow) (acc : List (String × UserMonthRow)) e,
      e ∈ l.foldl mergeStep acc →
      (∃ e0 ∈ acc, e.1 = e0.1 ∧ e.2.user_id = e0.2.user_id ∧ e.2.month = e0.2.month) ∨
      (∃ r ∈ l, e.2.user_id = r.user_id ∧ e.2.month = r.month ∧
        e.1 = umKey r.user_id r.month) := by
  intro l
  induction l with
  | nil =>
    intro acc e he
    exact Or.inl ⟨e, he, rfl, rfl, rfl⟩
  | cons r l ih =>
    intro acc e he
    rw [List.foldl_cons] at he
    rcases ih (mergeStep acc r) e he with ⟨e0, he0, hkey, hu, hm⟩ | ⟨r', hr', hu, hm, hkey⟩
    · unfold mergeStep at he0
      dsimp only at he0
      split at he0
      · rcases List.mem_map.1 he0 with ⟨e1, he1, heq⟩
        by_cases hk : e1.1 = umKey r.user_id r.month
        · rw [if_pos hk] at heq
          left
          refine ⟨e1, he1, ?_, ?_, ?_⟩
          · rw [hkey, ← heq]
          · rw [hu, ← heq, mergeInto_user]
          · rw [hm, ← heq, mergeInto_month]
        · rw [if_neg hk] at heq
          exact Or.inl ⟨e1, he1, heq ▸ hkey, heq ▸ hu, heq ▸ hm⟩
      · rcases List.mem_append.1 he0 with he1 | he1
        · exact Or.inl ⟨e0, he1, hkey, hu, hm⟩
        · simp only [List.mem_singleton] at he1
          right
          refine ⟨r, List.mem_cons_self r l, ?_, ?_, ?_⟩
          · rw [hu, he1, mergeInto_user]
          · rw [hm, he1, mergeInto_month]
          · rw [hkey, he1]
    · exact Or.inr ⟨r', List.mem_cons_of_mem r hr', hu, hm, hkey⟩

/-- The keys of the merge map after one step. -/
theorem mergeStep_keys (acc : List (String × UserMonthRow)) (r : UserMonthRow) :
    (mergeStep acc r).map (fun e => e.1) =
      if acc.any (fun e => e.1 = umKey r.user_id r.month) then acc.map (fun e => e.1)
      else acc.map (fun e => e.1) ++ [umKey r.user_id r.month] := by
  unfold mergeStep
  split
  · next h =>
    rw [if_pos h, List.map_map]
    refine List.map_congr_left ?_
    intro e _
    by_cases hk : e.1 = umKey r.user_id r.month
    · simp [hk]
    · simp [hk]
  · next h =>
    rw [if_neg h]
    simp

theorem mergeFold_keys_nodup :
    ∀ (l : List UserMonthRow) (acc : List (String × UserMonthRow)),
      ((acc.map (fun e => e.1)).Nodup) →
      (((l.foldl mergeStep acc).map (fun e => e.1)).Nodup) := by
  intro l
  induction l with
  | nil => intro acc h; exact h
  | cons r l ih =>
    intro acc h
    rw [List.foldl_cons]
    refine ih (mergeStep acc r) ?_
    rw [mergeStep_keys]
    split
    · exact h
    · next hany =>
      rw [List.nodup_append]
      refine ⟨h, List.nodup_singleton _, ?_⟩
      intro k hk
      simp only [List.mem_singleton]
      intro hkk
      subst hkk
      rcases List.mem_map.1 hk with ⟨e, he, hek⟩
      exact hany (List.any_eq_true.2 ⟨e, he, by simp [hek]⟩)

/-- A row accepted by the normalizer has a non-empty user id and a non-empty,
underscore-free month produced by `monthFromDateString`. -/
theorem toUserMonthRow_some {dp : String → Option (Nat × Fin 12)} {hasMonth : Bool}
    {raw : RawRow} {r : UserMonthRow} (h : toUserMonthRow dp hasMonth raw = some r) :
    r.user_id ≠ "" ∧ r.month ≠ "" ∧ '_' ∉ r.month.data := by
  unfold toUserMonthRow at h
  dsimp only at h
  obtain ⟨Z, hZ⟩ : ∃ Z, (if hasMonth then monthFromDateString dp (jsGet raw "month")
      else monthFromDateString dp (jsOr (jsGet raw "created_at")
        (jsGet raw "Start Date (UTC)"))) = monthFromDateString dp Z := by
    cases hasMonth
    · exact ⟨jsOr (jsGet raw "created_at") (jsGet raw "Start Date (UTC)"), by simp⟩
    · exact ⟨jsGet raw "month", by simp⟩
  rw [hZ] at h
  split at h
  · exact absurd h (by simp)
  · next hcond =>
    simp only [Option.some.injEq] at h
    simp only [Bool.or_eq_true, decide_eq_true_eq, not_or] at hcond
    refine ⟨?_, ?_, ?_⟩
    · rw [← h]
      exact hcond.1
    · rw [← h]
      exact hcond.2
    · rw [← h]
      exact mfds_no_underscore dp _

/-- Every normalized (pre-merge) row has a non-empty, underscore-free month. -/
theorem preMergeRows_month_shape (dp : String → Option (Nat × Fin 12)) (raws : List RawRow) :
    ∀ r ∈ preMergeRows dp raws, r.month ≠ "" ∧ '_' ∉ r.month.data := by
  intro r hr
  rcases raws with _ | ⟨r0, rest⟩
  · exact absurd hr (by simp [preMergeRows])
  · have hr2 : r ∈ List.filterMap
        (toUserMonthRow dp ((r0.map (fun e => e.1)).contains "month")) (r0 :: rest) := hr
    rcases List.mem_filterMap.1 hr2 with ⟨raw, _, heq⟩
    exact ⟨(toUserMonthRow_some heq).2.1, (toUserMonthRow_some heq).2.2⟩

/-- Every normalized user-month record has a non-empty, underscore-free
month. -/
theorem userMonthRows_month_shape (dp : String → Option (Nat × Fin 12)) (raws : List RawRow) :
    ∀ r ∈ userMonthRowsOf dp raws, r.month ≠ "" ∧ '_' ∉ r.month.data := by
  intro r hr
  unfold userMonthRowsOf at hr
  have hr' := (List.perm_insertionSort umrLE _).mem_iff.1 hr
  rcases List.mem_map.1 hr' with ⟨e, he, heq⟩
  rcases mergeFold_prov _ [] e he with ⟨e0, he0, _⟩ | ⟨r', hr'', _, hm, _⟩
  · exact absurd he0 (by simp)
  · have := preMergeRows_month_shape dp raws r' hr''
    rw [← heq, hm]
    exact this

/-- The normalized records carry pairwise-distinct (user, month) pairs. -/
theorem userMonthRows_pairwise (dp : String → Option (Nat × Fin 12)) (raws : List RawRow) :
    (userMonthRowsOf dp raws).Pairwise
      (fun a b => ¬(a.user_id = b.user_id ∧ a.month = b.month)) := by
  unfold userMonthRowsOf
  have hsym : ∀ {x y : UserMonthRow},
      (fun a b => ¬(a.user_id = b.user_id ∧ a.month = b.month)) x y →
      (fun a b => ¬(a.user_id = b.user_id ∧ a.month = b.month)) y x := by
    intro x y h hxy
    exact h ⟨hxy.1.symm, hxy.2.symm⟩
  rw [(List.perm_insertionSort umrLE _).pairwise_iff hsym]
  have hnodup := mergeFold_keys_nodup (preMergeRows dp raws) [] (by simp)
  have hpw : ((preMergeRows dp raws).foldl mergeStep []).Pairwise
      (fun e1 e2 => e1.1 ≠ e2.1) := by
    rw [List.Nodup, List.pairwise_map] at hnodup
    exact hnodup
  rw [List.pairwise_map]
  refine hpw.imp_of_mem ?_
  intro e1 e2 h1 h2 hne hpair
  have k1 : e1.1 = umKey e1.2.user_id e1.2.month := by
    rcases mergeFold_prov _ [] e1 h1 with ⟨e0, he0, _⟩ | ⟨r', _, hu, hm, hkey⟩
    · exact absurd he0 (by simp)
    · rw [hkey, hu, hm]
  have k2 : e2.1 = umKey e2.2.user_id e2.2.month := by
    rcases mergeFold_prov _ [] e2 h2 with ⟨e0, he0, _⟩ | ⟨r', _, hu, hm, hkey⟩
    · exact absurd he0 (by simp)
    · rw [hkey, hu, hm]
  apply hne
  rw [k1, k2, hpair.1, hpair.2]

/-! ## Classified records: shapes and uniqueness -/

theorem classifyRecord_user (kw : String → List String) (pres : List String)
    (r : UserMonthRow) : (classifyRecord kw pres r).user_id = r.user_id := rfl

theorem classifyRecord_month (kw : String → List String) (pres : List String)
    (r : UserMonthRow) : (classifyRecord kw pres r).month = r.month := rfl

theorem classifyAll_month_shape (kw : String → List String)
    (dp : String → Option (Nat × Fin 12)) (raws : List RawRow) :
    ∀ c ∈ classifyAll kw dp raws, c.month ≠ "" ∧ '_' ∉ c.month.data := by
  intro c hc
  unfold classifyAll at hc
  rcases List.mem_map.1 hc with ⟨r, hr, heq⟩
  have := userMonthRows_month_shape dp raws r hr
  rw [← heq]
  exact this

theorem classifyAll_pairwise (kw : String → List String)
    (dp : String → Option (Nat × Fin 12)) (raws : List RawRow) :
    (classifyAll kw dp raws).Pairwise
      (fun a b => ¬(a.user_id = b.user_id ∧ a.month = b.month)) := by
  unfold classifyAll
  rw [List.pairwise_map]
  exact userMonthRows_pairwise dp raws

/-- On a list with pairwise-distinct (user, month) pairs, `find?` at a
member's pair returns the member itself. -/
theorem find?_pairwise_self {cl : List ClassifiedRecord}
    (hp : cl.Pairwise (fun a b => ¬(a.user_id = b.user_id ∧ a.month = b.month)))
    {r : ClassifiedRecord} (hr : r ∈ cl) :
    cl.find? (fun x => x.user_id = r.user_id && x.month = r.month) = some r := by
  induction cl with
  | nil => exact absurd hr (by simp)
  | cons a t ih =>
    rcases List.mem_cons.1 hr with rfl | hr'
    · rw [List.find?_cons_of_pos _ (by simp)]
    · have hne := (List.pairwise_cons.1 hp).1 r hr'
      rw [List.find?_cons_of_neg _ ?_]
      · exact ih (List.pairwise_cons.1 hp).2 hr'
      · simp only [Bool.and_eq_true, decide_eq_true_eq, not_and]
        intro h1 h2
        exact hne ⟨h1, h2⟩

theorem actOf_spec {cl : List ClassifiedRecord}
    (hp : cl.Pairwise (fun a b => ¬(a.user_id = b.user_id ∧ a.month = b.month)))
    {r : ClassifiedRecord} (hr : r ∈ cl) :
    actOf cl r.user_id r.month = r.active_next_month := by
  unfold actOf
  rw [find?_pairwise_self hp hr]

/-- The presence index contains a user-month key exactly when a normalized
record exists with that user and that month, provided all recorded months and
the queried month are underscore-free. -/
theorem presence_iff (umr : List UserMonthRow)
    (hshape : ∀ r ∈ umr, '_' ∉ r.month.data)
    (u nm : String) (hnm : '_' ∉ nm.data) :
    (presenceKeys umr).contains (umKey u nm) = true ↔
      ∃ r ∈ umr, r.user_id = u ∧ r.month = nm := by
  unfold presenceKeys
  rw [show ((umr.map (fun r => umKey r.user_id r.month)).contains (umKey u nm) = true) ↔
      umKey u nm ∈ umr.map (fun r => umKey r.user_id r.month) from List.elem_iff]
  constructor
  · intro h
    rcases List.mem_map.1 h with ⟨r, hr, heq⟩
    have := (umKey_inj (hshape r hr) hnm).1 heq
    exact ⟨r, hr, this.1, this.2⟩
  · rintro ⟨r, hr, h1, h2⟩
    exact List.mem_map.2 ⟨r, hr, by rw [h1, h2]⟩

/-! ## Text concatenation of the user-month merge -/

theorem str_empty_append (s : String) : "" ++ s = s := by
  apply String.ext
  rw [String.data_append]
  rfl

theorem str_append_assoc (a b c : String) : a ++ b ++ c = a ++ (b ++ c) := by
  apply String.ext
  simp [String.data_append]

theorem str_append_ne_empty {a : String} (h : a ≠ "") (b : String) : a ++ b ≠ "" := by
  intro hc
  apply h
  have := congrArg String.data hc
  rw [String.data_append] at this
  rcases List.append_eq_nil.1 this with ⟨ha, _⟩
  exact String.ext ha

theorem jfStep_empty (t : String) : jfStep "" t = t := by
  unfold jfStep
  rw [if_neg (by simp)]
  exact str_empty_append t

theorem jfStep_nonempty {acc : String} (h : acc ≠ "") (t : String) :
    jfStep acc t = acc ++ "\n" ++ t := by
  unfold jfStep
  rw [if_pos h]

theorem joinNL_glue (a t : String) (ts : List String) :
    joinNL ((a ++ "\n" ++ t) :: ts) = a ++ "\n" ++ joinNL (t :: ts) := by
  cases ts with
  | nil => rfl
  | cons u us =>
    show (a ++ "\n" ++ t) ++ "\n" ++ joinNL (u :: us) = a ++ "\n" ++ (t ++ "\n" ++ joinNL (u :: us))
    apply String.ext
    simp [String.data_append, List.append_assoc]

theorem joinFrom_nonempty {a : String} (h : a ≠ "") (ts : List String) :
    joinFrom a ts = joinNL (a :: ts) := by
  induction ts generalizing a with
  | nil => rfl
  | cons t ts ih =>
    show joinFrom (jfStep a t) ts = _
    rw [jfStep_nonempty h, ih (str_append_ne_empty (str_append_ne_empty h "\n") t)]
    exact joinNL_glue a t ts

theorem joinFrom_empty (ts : List String) :
    joinFrom "" ts = joinNL (ts.dropWhile (fun t => t = "")) := by
  induction ts with
  | nil => rfl
  | cons t ts ih =>
    by_cases h : t = ""
    · subst h
      show joinFrom (jfStep "" "") ts = _
      rw [show jfStep "" "" = "" from rfl, ih, List.dropWhile_cons]
      simp
    · show joinFrom (jfStep "" t) ts = _
      rw [jfStep_empty, joinFrom_nonempty h, List.dropWhile_cons]
      simp [h]

theorem mergeInto_text (cur r : UserMonthRow) :
    (mergeInto cur r).text = jfStep cur.text r.text := rfl

theorem textsOfKey_cons (k : String) (r : UserMonthRow) (l : List UserMonthRow) :
    textsOfKey k (r :: l) =
      if umKey r.user_id r.month = k then r.text :: textsOfKey k l else textsOfKey k l := by
  unfold textsOfKey
  rw [List.filter_cons]
  by_cases h : umKey r.user_id r.month = k
  · simp [h]
  · simp [h]

/-- The text of each entry of the merge fold is the separator-fold of the
texts of the rows sharing its key, continued from the entry's initial text. -/
theorem mergeFold_text :
    ∀ (l : List UserMonthRow) (acc : List (String × UserMonthRow)) e,
      e ∈ l.foldl mergeStep acc →
      (∃ e0 ∈ acc, e.1 = e0.1 ∧ e.2.text = joinFrom e0.2.text (textsOfKey e.1 l)) ∨
      ((∀ e0 ∈ acc, e0.1 ≠ e.1) ∧ e.2.text = joinFrom "" (textsOfKey e.1 l)) := by
  intro l
  induction l with
  | nil =>
    intro acc e he
    exact Or.inl ⟨e, he, rfl, rfl⟩
  | cons r l ih =>
    intro acc e he
    rw [List.foldl_cons] at he
    rcases ih (mergeStep acc r) e he with ⟨e0, he0, hkey, htext⟩ | ⟨hfresh, htext⟩
    · unfold mergeStep at he0
      dsimp only at he0
      split at he0
      · next hany =>
        rcases List.mem_map.1 he0 with ⟨e1, he1, heq⟩
        by_cases hk : e1.1 = umKey r.user_id r.month
        · rw [if_pos hk] at heq
          left
          refine ⟨e1, he1, by rw [hkey, ← heq], ?_⟩
          have hkey1 : e.1 = umKey r.user_id r.month := by rw [hkey, ← heq]; exact hk
          rw [htext, ← heq, mergeInto_text, textsOfKey_cons, if_pos hkey1.symm]
          rfl
        · rw [if_neg hk] at heq
          left
          refine ⟨e1, he1, heq ▸ hkey, ?_⟩
          have hkey1 : e.1 ≠ umKey r.user_id r.month := by rw [hkey, ← heq]; exact hk
          rw [htext, ← heq, textsOfKey_cons, if_neg (fun hc => hkey1 hc.symm)]
      · next hany =>
        rcases List.mem_append.1 he0 with he1 | he1
        · have hne : e0.1 ≠ umKey r.user_id r.month := by
            intro hc
            exact hany (List.any_eq_true.2 ⟨e0, he1, by simp [hc]⟩)
          left
          refine ⟨e0, he1, hkey, ?_⟩
          have hkey1 : e.1 ≠ umKey r.user_id r.month := by rw [hkey]; exact hne
          rw [htext, textsOfKey_cons, if_neg (fun hc => hkey1 hc.symm)]
        · simp only [List.mem_singleton] at he1
          right
          have hkey1 : e.1 = umKey r.user_id r.month := by rw [hkey, he1]
          constructor
          · intro e2 he2 hc
            exact hany (List.any_eq_true.2 ⟨e2, he2, by simp [hc, hkey1]⟩)
          · rw [htext, he1, textsOfKey_cons, if_pos hkey1.symm]
            rfl
    · unfold mergeStep at hfresh
      dsimp only at hfresh
      right
      have hkr : umKey r.user_id r.month ≠ e.1 := by
        by_cases hany : (acc.any fun x => decide (x.1 = umKey r.user_id r.month)) = true
        · rw [if_pos hany] at hfresh
          rcases List.any_eq_true.1 hany with ⟨a, ha, hak⟩
          simp only [decide_eq_true_eq] at hak
          have h2 := hfresh (a.1, mergeInto a.2 r)
            (List.mem_map.2 ⟨a, ha, by simp [hak]⟩)
          rw [← hak]
          exact h2
        · rw [if_neg hany] at hfresh
          exact hfresh _ (List.mem_append.2 (Or.inr (List.mem_singleton.2 rfl)))
      constructor
      · intro e0 he0
        by_cases hany : (acc.any fun x => decide (x.1 = umKey r.user_id r.month)) = true
        · rw [if_pos hany] at hfresh
          by_cases hk : e0.1 = umKey r.user_id r.month
          · rw [hk]; exact hkr
          · exact hfresh _ (List.mem_map.2 ⟨e0, he0, by simp [hk]⟩)
        · rw [if_neg hany] at hfresh
          exact hfresh e0 (List.mem_append.2 (Or.inl he0))
      · rw [htext, textsOfKey_cons, if_neg hkr]

/-- The merged text of every normalized record is the separator-fold of the
extracted texts of its contributing pre-merge rows. -/
theorem userMonthRows_text (dp : String → Option (Nat × Fin 12)) (raws : List RawRow) :
    ∀ rec ∈ userMonthRowsOf dp raws,
      rec.text = joinFrom "" (contributingTexts dp raws rec.user_id rec.month) := by
  intro rec hrec
  unfold userMonthRowsOf at hrec
  have hrec' := (List.perm_insertionSort umrLE _).mem_iff.1 hrec
  rcases List.mem_map.1 hrec' with ⟨e, he, heq⟩
  have hkey : e.1 = umKey e.2.user_id e.2.month := by
    rcases mergeFold_prov _ [] e he with ⟨e0, he0, _⟩ | ⟨r', _, hu, hm, hk⟩
    · exact absurd he0 (by simp)
    · rw [hk, hu, hm]
  rcases mergeFold_text _ [] e he with ⟨e0, he0, _⟩ | ⟨_, htext⟩
  · exact absurd he0 (by simp)
  · have : contributingTexts dp raws rec.user_id rec.month =
        textsOfKey e.1 (preMergeRows dp raws) := by
      unfold contributingTexts textsOfKey
      rw [← heq, ← hkey]
    rw [this, ← heq]
    exact htext

/-! ## Aggregation buckets -/

/-- The `agg`-map key of a bucket. -/
def bKey (b : Bucket) : String := bucketKey b.month b.persona

theorem aggregateRecords_eq (mode : String) (cl : List ClassifiedRecord) :
    aggregateRecords mode cl = applyOps [] (cl.flatMap (opsOf mode)) := by
  suffices h : ∀ (cl : List ClassifiedRecord) (aggs : List Bucket),
      cl.foldl (fun aggs r => applyOps aggs (opsOf mode r)) aggs =
        applyOps aggs (cl.flatMap (opsOf mode)) from h cl []
  intro cl
  induction cl with
  | nil => intro aggs; rfl
  | cons r cl ih =>
    intro aggs
    rw [List.foldl_cons, ih, List.flatMap_cons]
    unfold applyOps
    rw [List.foldl_append]

theorem mem_setAdd {l : List String} {x v : String} :
    v ∈ setAdd l x ↔ v ∈ l ∨ v = x := by
  unfold setAdd
  by_cases h : x ∈ l
  · rw [if_pos h]
    constructor
    · exact Or.inl
    · rintro (hv | rfl)
      · exact hv
      · exact h
  · rw [if_neg h]
    simp

theorem setAdd_nodup {l : List String} {x : String} (h : l.Nodup) : (setAdd l x).Nodup := by
  unfold setAdd
  by_cases hx : x ∈ l
  · rw [if_pos hx]; exact h
  · rw [if_neg hx]
    rw [List.nodup_append]
    refine ⟨h, List.nodup_singleton x, ?_⟩
    intro a ha
    simp only [List.mem_singleton]
    intro hax
    rw [hax] at ha
    exact hx ha

theorem addToBucket_month (b : Bucket) (u : String) (a : Bool) :
    (addToBucket b u a).month = b.month := rfl

theorem addToBucket_persona (b : Bucket) (u : String) (a : Bool) :
    (addToBucket b u a).persona = b.persona := rfl

theorem bKey_addToBucket (b : Bucket) (u : String) (a : Bool) :
    bKey (addToBucket b u a) = bKey b := rfl

theorem addToBucket_BInv {act : String → String → Bool} {b : Bucket} {u : String} {a : Bool}
    (hb : BInv act b) (hact : act u b.month = a) : BInv act (addToBucket b u a) := by
  obtain ⟨hnu, hnr, hnc, hret, hchu⟩ := hb
  refine ⟨setAdd_nodup hnu, ?_, ?_, ?_, ?_⟩
  · show (if a then setAdd b.retainedUsers u else b.retainedUsers).Nodup
    by_cases ha : a <;> simp [ha, setAdd_nodup, hnr]
  · show (if a then b.churnedUsers else setAdd b.churnedUsers u).Nodup
    by_cases ha : a <;> simp [ha, setAdd_nodup, hnc]
  · intro v
    show v ∈ (if a then setAdd b.retainedUsers u else b.retainedUsers) ↔
      v ∈ setAdd b.users u ∧ act v (addToBucket b u a).month = true
    rw [addToBucket_month]
    cases a
    · rw [if_neg (by simp)]
      rw [hret v, mem_setAdd]
      constructor
      · rintro ⟨hv, hact2⟩
        exact ⟨Or.inl hv, hact2⟩
      · rintro ⟨hv | rfl, hact2⟩
        · exact ⟨hv, hact2⟩
        · rw [hact2] at hact
          exact absurd hact.symm (by simp)
    · rw [if_pos rfl, mem_setAdd, mem_setAdd, hret v]
      constructor
      · rintro (⟨hv, hact2⟩ | rfl)
        · exact ⟨Or.inl hv, hact2⟩
        · exact ⟨Or.inr rfl, hact⟩
      · rintro ⟨hv | rfl, hact2⟩
        · exact Or.inl ⟨hv, hact2⟩
        · exact Or.inr rfl
  · intro v
    show v ∈ (if a then b.churnedUsers else setAdd b.churnedUsers u) ↔
      v ∈ setAdd b.users u ∧ act v (addToBucket b u a).month = false
    rw [addToBucket_month]
    cases a
    · rw [if_neg (by simp), mem_setAdd, mem_setAdd, hchu v]
      constructor
      · rintro (⟨hv, hact2⟩ | rfl)
        · exact ⟨Or.inl hv, hact2⟩
        · exact ⟨Or.inr rfl, hact⟩
      · rintro ⟨hv | rfl, hact2⟩
        · exact Or.inl ⟨hv, hact2⟩
        · exact Or.inr rfl
    · rw [if_pos rfl]
      rw [hchu v, mem_setAdd]
      constructor
      · rintro ⟨hv, hact2⟩
        exact ⟨Or.inl hv, hact2⟩
      · rintro ⟨hv | rfl, hact2⟩
        · exact ⟨hv, hact2⟩
        · rw [hact2] at hact
          exact absurd hact.symm (by simp)

theorem blank_BInv (act : String → String → Bool) (m p : String) :
    BInv act
      { month := m, persona := p, users := [], retainedUsers := [],
        churnedUsers := [] } := by
  refine ⟨List.nodup_nil, List.nodup_nil, List.nodup_nil, ?_, ?_⟩ <;> intro v <;> simp [BInv]

theorem ensureAdd_BInv {act : String → String → Bool} {aggs : List Bucket}
    {m p u : String} {a : Bool} (hm : '_' ∉ m.data) (hact : act u m = a)
    (hinv : ∀ b ∈ aggs, BInv act b ∧ '_' ∉ b.month.data) :
    ∀ b ∈ ensureAdd aggs m p u a, BInv act b ∧ '_' ∉ b.month.data := by
  intro b hb
  unfold ensureAdd at hb
  split at hb
  · rcases List.mem_map.1 hb with ⟨b1, hb1, heq⟩
    by_cases hk : bucketKey b1.month b1.persona = bucketKey m p
    · rw [if_pos hk] at heq
      have hmon : b1.month = m := ((bucketKey_inj (hinv b1 hb1).2 hm).1 hk).1
      refine ⟨?_, ?_⟩
      · rw [← heq]
        exact addToBucket_BInv (hinv b1 hb1).1 (by rw [hmon]; exact hact)
      · rw [← heq, addToBucket_month, hmon]
        exact hm
    · rw [if_neg hk] at heq
      exact heq ▸ hinv b1 hb1
  · rcases List.mem_append.1 hb with hb1 | hb1
    · exact hinv b hb1
    · simp only [List.mem_singleton] at hb1
      subst hb1
      refine ⟨addToBucket_BInv (blank_BInv act m p) hact, ?_⟩
      rw [addToBucket_month]
      exact hm

theorem applyOps_BInv {act : String → String → Bool} :
    ∀ (ops : List Contribution) (aggs : List Bucket),
      (∀ op ∈ ops, '_' ∉ op.1.data ∧ act op.2.2.1 op.1 = op.2.2.2) →
      (∀ b ∈ aggs, BInv act b ∧ '_' ∉ b.month.data) →
      ∀ b ∈ applyOps aggs ops, BInv act b ∧ '_' ∉ b.month.data := by
  intro ops
  induction ops with
  | nil => intro aggs _ hinv b hb; exact hinv b hb
  | cons op ops ih =>
    intro aggs hops hinv b hb
    have hop := hops op (List.mem_cons_self op ops)
    exact ih (ensureAdd aggs op.1 op.2.1 op.2.2.1 op.2.2.2)
      (fun o ho => hops o (List.mem_cons_of_mem op ho))
      (ensureAdd_BInv hop.1 hop.2 hinv) b hb

/-- A partitioned bucket has `retained + churned = users` and
`retained ≤ users` on `Set` sizes. -/
theorem BInv_counts {act : String → String → Bool} {b : Bucket} (h : BInv act b) :
    b.retainedUsers.length + b.churnedUsers.length = b.users.length ∧
    b.retainedUsers.length ≤ b.users.length := by
  obtain ⟨hnu, hnr, hnc, hret, hchu⟩ := h
  have hU : b.users.toFinset = b.retainedUsers.toFinset ∪ b.churnedUsers.toFinset := by
    ext v
    simp only [List.mem_toFinset, Finset.mem_union]
    constructor
    · intro hv
      cases hact : act v b.month
      · exact Or.inr ((hchu v).2 ⟨hv, hact⟩)
      · exact Or.inl ((hret v).2 ⟨hv, hact⟩)
    · rintro (hv | hv)
      · exact ((hret v).1 hv).1
      · exact ((hchu v).1 hv).1
  have hdisj : Disjoint b.retainedUsers.toFinset b.churnedUsers.toFinset := by
    rw [Finset.disjoint_left]
    intro v hv hv2
    rw [List.mem_toFinset] at hv hv2
    have h1 := ((hret v).1 hv).2
    have h2 := ((hchu v).1 hv2).2
    rw [h1] at h2
    exact absurd h2 (by simp)
  have hcard := congrArg Finset.card hU
  rw [Finset.card_union_of_disjoint hdisj] at hcard
  rw [List.toFinset_card_of_nodup hnu, List.toFinset_card_of_nodup hnr,
    List.toFinset_card_of_nodup hnc] at hcard
  exact ⟨hcard.symm, by omega⟩

theorem ensureAdd_months {aggs : List Bucket} {m p u : String} {a : Bool}
    (h : ∀ b ∈ aggs, '_' ∉ b.month.data) (hm : '_' ∉ m.data) :
    ∀ b ∈ ensureAdd aggs m p u a, '_' ∉ b.month.data := by
  intro b hb
  unfold ensureAdd at hb
  split at hb
  · rcases List.mem_map.1 hb with ⟨b1, hb1, heq⟩
    by_cases hk : bucketKey b1.month b1.persona = bucketKey m p
    · rw [if_pos hk] at heq
      rw [← heq, addToBucket_month]
      exact h b1 hb1
    · rw [if_neg hk] at heq
      exact heq ▸ h b1 hb1
  · rcases List.mem_append.1 hb with hb1 | hb1
    · exact h b hb1
    · simp only [List.mem_singleton] at hb1
      subst hb1
      rw [addToBucket_month]
      exact hm

theorem ensureAdd_keys (aggs : List Bucket) (m p u : String) (a : Bool) :
    (ensureAdd aggs m p u a).map bKey =
      if aggs.any (fun b => bucketKey b.month b.persona = bucketKey m p) then aggs.map bKey
      else aggs.map bKey ++ [bucketKey m p] := by
  unfold ensureAdd
  split
  · rw [List.map_map]
    refine List.map_congr_left ?_
    intro b _
    by_cases hk : bucketKey b.month b.persona = bucketKey m p
    · simp only [Function.comp_apply, if_pos hk]
      rw [bKey_addToBucket]
    · simp only [Function.comp_apply, if_neg hk]
  · simp only [List.map_append, List.map_cons, List.map_nil]
    rfl

theorem ensureAdd_keys_nodup {aggs : List Bucket} {m p u : String} {a : Bool}
    (h : (aggs.map bKey).Nodup) : ((ensureAdd aggs m p u a).map bKey).Nodup := by
  rw [ensureAdd_keys]
  split
  · exact h
  · next hany =>
    rw [List.nodup_append]
    refine ⟨h, List.nodup_singleton _, ?_⟩
    intro k hk
    simp only [List.mem_singleton]
    intro hkk
    subst hkk
    rcases List.mem_map.1 hk with ⟨b, hb, hbk⟩
    exact hany (List.any_eq_true.2 ⟨b, hb, by simp [bKey] at hbk ⊢; exact hbk⟩)

/-- Bucket users after applying contributions: a user is in a bucket's user
set exactly when it was there initially or some contribution targets the
bucket's key with that user. -/
theorem applyOps_users :
    ∀ (ops : List Contribution) (aggs : List Bucket), (aggs.map bKey).Nodup →
      ∀ b ∈ applyOps aggs ops, ∀ v,
        (v ∈ b.users ↔ (∃ b0 ∈ aggs, bKey b0 = bKey b ∧ v ∈ b0.users) ∨
          (∃ op ∈ ops, bucketKey op.1 op.2.1 = bKey b ∧ op.2.2.1 = v)) := by
  intro ops
  induction ops with
  | nil =>
    intro aggs hnd b hb v
    constructor
    · intro hv
      exact Or.inl ⟨b, hb, rfl, hv⟩
    · rintro (⟨b0, hb0, hk, hv⟩ | ⟨op, hop, _⟩)
      · have : b0 = b := List.inj_on_of_nodup_map hnd hb0 hb hk
        exact this ▸ hv
      · exact absurd hop (by simp)
  | cons op ops ih =>
    intro aggs hnd b hb v
    obtain ⟨m, p, u, a⟩ := op
    have hb' : b ∈ applyOps (ensureAdd aggs m p u a) ops := hb
    rw [ih (ensureAdd aggs m p u a) (ensureAdd_keys_nodup hnd) b hb' v]
    constructor
    · rintro (⟨b0, hb0, hk, hv⟩ | ⟨o, ho, hk, hv⟩)
      · unfold ensureAdd at hb0
        split at hb0
        · rcases List.mem_map.1 hb0 with ⟨b1, hb1, heq⟩
          by_cases hk1 : bucketKey b1.month b1.persona = bucketKey m p
          · rw [if_pos hk1] at heq
            rw [← heq] at hk hv
            rw [bKey_addToBucket] at hk
            have hv2 : v ∈ setAdd b1.users u := hv
            rcases mem_setAdd.1 hv2 with hv3 | rfl
            · exact Or.inl ⟨b1, hb1, hk, hv3⟩
            · refine Or.inr ⟨(m, p, v, a), List.mem_cons_self _ _, ?_, rfl⟩
              show bucketKey m p = bKey b
              rw [← hk]
              show bucketKey m p = bKey b1
              exact hk1.symm
          · rw [if_neg hk1] at heq
            exact Or.inl ⟨b1, hb1, heq ▸ hk, heq ▸ hv⟩
        · rcases List.mem_append.1 hb0 with hb1 | hb1
          · exact Or.inl ⟨b0, hb1, hk, hv⟩
          · simp only [List.mem_singleton] at hb1
            subst hb1
            rw [bKey_addToBucket] at hk
            have hv2 : v ∈ setAdd ([] : List String) u := hv
            rcases mem_setAdd.1 hv2 with hv3 | rfl
            · exact absurd hv3 (by simp)
            · exact Or.inr ⟨(m, p, v, a), List.mem_cons_self _ _, hk, rfl⟩
      · exact Or.inr ⟨o, List.mem_cons_of_mem _ ho, hk, hv⟩
    · rintro (⟨b0, hb0, hk, hv⟩ | ⟨o, ho, hk, hv⟩)
      · left
        unfold ensureAdd
        split
        · refine ⟨if bucketKey b0.month b0.persona = bucketKey m p
              then addToBucket b0 u a else b0, List.mem_map.2 ⟨b0, hb0, rfl⟩, ?_, ?_⟩
          · by_cases hk1 : bucketKey b0.month b0.persona = bucketKey m p
            · rw [if_pos hk1, bKey_addToBucket]
              exact hk
            · rw [if_neg hk1]
              exact hk
          · by_cases hk1 : bucketKey b0.month b0.persona = bucketKey m p
            · rw [if_pos hk1]
              show v ∈ setAdd b0.users u
              exact mem_setAdd.2 (Or.inl hv)
            · rw [if_neg hk1]
              exact hv
        · exact ⟨b0, List.mem_append.2 (Or.inl hb0), hk, hv⟩
      · rcases List.mem_cons.1 ho with rfl | ho'
        · simp only at hk hv
          unfold ensureAdd
          split
          · next hany =>
            rcases List.any_eq_true.1 hany with ⟨b1, hb1, hbk⟩
            simp only [decide_eq_true_eq] at hbk
            left
            refine ⟨addToBucket b1 u a,
              List.mem_map.2 ⟨b1, hb1, by rw [if_pos hbk]⟩, ?_, ?_⟩
            · rw [bKey_addToBucket]
              show bKey b1 = bKey b
              rw [← hk]
              exact hbk
            · show v ∈ setAdd b1.users u
              rw [← hv]
              exact mem_setAdd.2 (Or.inr rfl)
          · left
            refine ⟨addToBucket
              { month := m, persona := p, users := [], retainedUsers := [],
                churnedUsers := [] } u a,
              List.mem_append.2 (Or.inr (List.mem_singleton.2 rfl)), ?_, ?_⟩
            · rw [bKey_addToBucket]
              exact hk
            · show v ∈ setAdd ([] : List String) u
              rw [← hv]
              exact mem_setAdd.2 (Or.inr rfl)
        · exact Or.inr ⟨o, ho', hk, hv⟩

/-! ## Classifier: priority resolution -/

theorem sortedPersonas_eq : sortedPersonas = PERSONAS := by decide

theorem sortedPersonas_sorted :
    sortedPersonas.Pairwise (fun a b => a.priority ≤ b.priority) := by
  rw [sortedPersonas_eq]
  decide

/-- `find?` on a priority-sorted catalog returns a flagged persona of minimal
priority among the flagged ones. -/
theorem find?_min {l : List PersonaEntry}
    (hs : l.Pairwise (fun a b => a.priority ≤ b.priority))
    {f : PersonaEntry → Bool} {p : PersonaEntry} (h : l.find? f = some p) :
    f p = true ∧ ∀ q ∈ l, f q = true → p.priority ≤ q.priority := by
  induction l with
  | nil => exact absurd h (by simp)
  | cons a t ih =>
    by_cases hf : f a = true
    · rw [List.find?_cons_of_pos _ hf] at h
      simp only [Option.some.injEq] at h
      subst h
      refine ⟨hf, ?_⟩
      intro q hq _
      rcases List.mem_cons.1 hq with rfl | hq'
      · exact le_refl _
      · exact (List.pairwise_cons.1 hs).1 q hq'
    · rw [List.find?_cons_of_neg _ (by simpa using hf)] at h
      obtain ⟨h1, h2⟩ := ih (List.pairwise_cons.1 hs).2 h
      refine ⟨h1, ?_⟩
      intro q hq hfq
      rcases List.mem_cons.1 hq with rfl | hq'
      · exact absurd hfq hf
      · exact h2 q hq' hfq

theorem classify_flags (text : String) (kw : String → List String) :
    (classifyDominantPersona text kw).2 = flagsFor text kw := by
  unfold classifyDominantPersona
  dsimp only
  split <;> rfl

theorem classify_none_iff (text : String) (kw : String → List String) :
    (classifyDominantPersona text kw).1 = none ↔
      ∀ p ∈ PERSONAS, flagsFor text kw p.key = false := by
  unfold classifyDominantPersona
  dsimp only
  split
  · next hany =>
    rcases List.any_eq_true.1 hany with ⟨p, hp, hfp⟩
    have hfind : (sortedPersonas.find? (fun q => flagsFor text kw q.key)).isSome := by
      rw [List.find?_isSome]
      exact ⟨p, by rw [sortedPersonas_eq]; exact hp, hfp⟩
    constructor
    · intro h
      rcases Option.isSome_iff_exists.1 hfind with ⟨q, hq⟩
      rw [hq] at h
      exact absurd h (by simp)
    · intro h
      exact absurd (h p hp) (by simp [hfp])
  · next hany =>
    constructor
    · intro _ p hp
      by_contra hc
      exact hany (List.any_eq_true.2 ⟨p, hp, by simpa using hc⟩)
    · intro _
      rfl

theorem classify_some {text : String} {kw : String → List String} {k : String}
    (h : (classifyDominantPersona text kw).1 = some k) :
    ∃ p ∈ PERSONAS, p.key = k ∧ flagsFor text kw p.key = true ∧
      ∀ q ∈ PERSONAS, flagsFor text kw q.key = true → p.priority ≤ q.priority := by
  unfold classifyDominantPersona at h
  dsimp only at h
  split at h
  · rcases Option.map_eq_some'.1 h with ⟨p, hfind, hkey⟩
    obtain ⟨hf, hmin⟩ := find?_min sortedPersonas_sorted hfind
    have hp : p ∈ PERSONAS := by
      rw [← sortedPersonas_eq]
      exact List.mem_of_find?_eq_some hfind
    refine ⟨p, hp, hkey, hf, ?_⟩
    intro q hq hfq
    exact hmin q (by rw [sortedPersonas_eq]; exact hq) hfq
  · exact absurd h (by simp)

/-- Any text flagged for `trust_erosion` (priority 1) is dominated by it. -/
theorem classify_trust {text : String} {kw : String → List String}
    (h : flagsFor text kw "trust_erosion" = true) :
    (classifyDominantPersona text kw).1 = some "trust_erosion" := by
  unfold classifyDominantPersona
  dsimp only
  rw [if_pos (List.any_eq_true.2 ⟨⟨"trust_erosion", 1⟩, by decide, by simpa using h⟩)]
  rw [sortedPersonas_eq]
  show ((PERSONAS.find? fun p => flagsFor text kw p.key).map (fun p => p.key)) = _
  rw [show PERSONAS = ⟨"trust_erosion", 1⟩ :: PERSONAS.tail from rfl]
  rw [List.find?_cons_of_pos _ (by simpa using h)]
  rfl

theorem classify_not_none {text : String} {kw : String → List String} {p : PersonaEntry}
    (hp : p ∈ PERSONAS) (h : flagsFor text kw p.key = true) :
    (classifyDominantPersona text kw).1 ≠ none := by
  intro hc
  rw [classify_none_iff] at hc
  exact absurd (hc p hp) (by simp [h])

theorem includesL_nil (hay : List Char) : includesL hay [] = true := by
  cases hay <;> rfl

/-- An empty keyword always matches (JS `includes("")` is `true`). -/
theorem flag_of_empty_kw {text : String} {kw : String → List String} {k : String}
    (h : "" ∈ kw k) : flagsFor text kw k = true := by
  unfold flagsFor
  refine List.any_eq_true.2 ⟨"", h, ?_⟩
  show strIncludes (norm text) (norm "") = true
  unfold strIncludes norm jsToLower
  exact includesL_nil _

theorem parseKeywordsInput_no_empty (s : String) : "" ∉ parseKeywordsInput s := by
  unfold parseKeywordsInput
  intro h
  rcases List.mem_filter.1 h with ⟨_, hne⟩
  simp at hne

/-! ## CSV quoted-field round trip -/

theorem csvRun_escape_inQ {d : Char} :
    ∀ (s rest field : List Char) (row : List String) (rows : List (List String)),
      rest.head? ≠ some '"' →
      csvRun d (escapeQuotes s ++ '"' :: rest) true field row rows =
        csvRun d rest false (field ++ s) row rows := by
  intro s
  induction s with
  | nil =>
    intro rest field row rows h
    rw [List.append_nil]
    show csvRun d ('"' :: rest) true field row rows = _
    cases rest with
    | nil => rfl
    | cons r2 t =>
      have hr2 : r2 ≠ '"' := by simpa using h
      show (if r2 = '"' then csvRun d t true (field ++ ['"']) row rows
        else csvRun d (r2 :: t) false field row rows) = _
      rw [if_neg hr2]
  | cons c s ih =>
    intro rest field row rows h
    by_cases hc : c = '"'
    · subst hc
      show csvRun d ('"' :: '"' :: (escapeQuotes s ++ '"' :: rest)) true field row rows = _
      show csvRun d (escapeQuotes s ++ '"' :: rest) true (field ++ ['"']) row rows = _
      rw [ih rest (field ++ ['"']) row rows h]
      rw [List.append_assoc]
      rfl
    · have hesc : escapeQuotes (c :: s) = c :: escapeQuotes s := by
        conv_lhs => rw [escapeQuotes]
        rw [if_neg hc]
      rw [hesc]
      have step : csvRun d (c :: (escapeQuotes s ++ '"' :: rest)) true field row rows =
          csvRun d (escapeQuotes s ++ '"' :: rest) true (field ++ [c]) row rows := by
        rw [csvRun.eq_def]
        simp [hc]
      rw [show (c :: escapeQuotes s) ++ '"' :: rest = c :: (escapeQuotes s ++ '"' :: rest)
        from rfl]
      rw [step, ih rest (field ++ [c]) row rows h, List.append_assoc]
      rfl

/-- Running the loop on a quoted, quote-escaped field appends exactly the
original field content. -/
theorem csvRun_escape {d : Char} (s rest : List Char) (field : List Char)
    (row : List String) (rows : List (List String)) (h : rest.head? ≠ some '"') :
    csvRun d ('"' :: (escapeQuotes s ++ '"' :: rest)) false field row rows =
      csvRun d rest false (field ++ s) row rows := by
  have step : csvRun d ('"' :: (escapeQuotes s ++ '"' :: rest)) false field row rows =
      csvRun d (escapeQuotes s ++ '"' :: rest) true field row rows := by
    rw [csvRun.eq_def]
    simp
  rw [step]
  exact csvRun_escape_inQ s rest field row rows h

/-! ## Deltas and grouping -/

theorem deltaChain_length (prev : Option AggRow) (l : List AggRow) :
    (deltaChain prev l).length = l.length := by
  induction l generalizing prev with
  | nil => rfl
  | cons a rest ih =>
    show (_ :: deltaChain (some a) rest).length = _
    rw [List.length_cons, List.length_cons, ih]

/-- Every delta-annotated row is one of the input rows with only the two MoM
fields replaced. -/
theorem deltaChain_mem :
    ∀ (l : List AggRow) (prev : Option AggRow) (x : AggRow), x ∈ deltaChain prev l →
      ∃ y ∈ l, x.month = y.month ∧ x.persona = y.persona ∧ x.users = y.users ∧
        x.retained = y.retained ∧ x.churned = y.churned ∧ x.retention = y.retention := by
  intro l
  induction l with
  | nil => intro prev x hx; exact absurd hx (by simp [deltaChain])
  | cons a rest ih =>
    intro prev x hx
    rcases List.mem_cons.1 hx with rfl | hx'
    · exact ⟨a, List.mem_cons_self a rest, rfl, rfl, rfl, rfl, rfl, rfl⟩
    · rcases ih (some a) x hx' with ⟨y, hy, hrest⟩
      exact ⟨y, List.mem_cons_of_mem a hy, hrest⟩

/-- The annotated list element-wise: the head takes its deltas from `prev`,
and each later element from its predecessor in the input list. -/
theorem deltaChain_get :
    ∀ (l : List AggRow) (prev : Option AggRow) (i : Nat) (hi : i < l.length),
      (deltaChain prev l).get ⟨i, by rw [deltaChain_length]; exact hi⟩ =
        { l.get ⟨i, hi⟩ with
          retention_mom := (if hz : i = 0 then prev else some (l.get ⟨i - 1, by omega⟩)).map
            (fun p => (l.get ⟨i, hi⟩).retention - p.retention),
          users_mom := (if hz : i = 0 then prev else some (l.get ⟨i - 1, by omega⟩)).map
            (fun p => ((l.get ⟨i, hi⟩).users : Int) - (p.users : Int)) } := by
  intro l
  induction l with
  | nil => intro prev i hi; exact absurd hi (by simp)
  | cons a rest ih =>
    intro prev i hi
    cases i with
    | zero => simp [deltaChain]
    | succ j =>
      have hj : j < rest.length := by
        rw [List.length_cons] at hi
        omega
      have := ih (some a) j hj
      show (deltaChain (some a) rest).get ⟨j, by rw [deltaChain_length]; exact hj⟩ = _
      rw [this]
      cases j with
      | zero => simp
      | succ k =>
        have hk : k < rest.length := by omega
        simp only [Nat.succ_ne_zero, dif_neg, not_false_iff]
        rfl

/-- Members of any `byPersona` group are rows of the grouped list and carry
that group's persona. -/
theorem groupByPersona_mem :
    ∀ (rows : List AggRow) (acc : List (String × List AggRow)) g,
      g ∈ rows.foldl groupStep acc → ∀ x ∈ g.2,
        (∃ g0 ∈ acc, g0.1 = g.1 ∧ x ∈ g0.2) ∨ (x ∈ rows ∧ x.persona = g.1) := by
  intro rows
  induction rows with
  | nil =>
    intro acc g hg x hx
    exact Or.inl ⟨g, hg, rfl, hx⟩
  | cons r rest ih =>
    intro acc g hg x hx
    rw [List.foldl_cons] at hg
    rcases ih (groupStep acc r) g hg x hx with ⟨g0, hg0, hk, hxg⟩ | ⟨hxr, hp⟩
    · unfold groupStep at hg0
      split at hg0
      · rcases List.mem_map.1 hg0 with ⟨g1, hg1, heq⟩
        by_cases hk1 : g1.1 = r.persona
        · rw [if_pos hk1] at heq
          rw [← heq] at hk hxg
          rcases List.mem_append.1 hxg with hxg1 | hxg1
          · exact Or.inl ⟨g1, hg1, hk, hxg1⟩
          · simp only [List.mem_singleton] at hxg1
            subst hxg1
            refine Or.inr ⟨List.mem_cons_self x rest, ?_⟩
            rw [← hk]
            exact hk1.symm ▸ rfl
        · rw [if_neg hk1] at heq
          exact Or.inl ⟨g1, hg1, heq ▸ hk, heq ▸ hxg⟩
      · rcases List.mem_append.1 hg0 with hg1 | hg1
        · exact Or.inl ⟨g0, hg1, hk, hxg⟩
        · simp only [List.mem_singleton] at hg1
          subst hg1
          simp only [List.mem_singleton] at hxg
          subst hxg
          exact Or.inr ⟨List.mem_cons_self x rest, hk⟩
    · exact Or.inr ⟨List.mem_cons_of_mem r hxr, hp⟩

/-- Pipeline contributions: every contribution of the classified records has
an underscore-free month and an `actOf`-consistent retention bit, and comes
from a record of the list. -/
theorem pipeline_ops (mode : String) (kw : String → List String)
    (dp : String → Option (Nat × Fin 12)) (raws : List RawRow) :
    ∀ op ∈ (classifyAll kw dp raws).flatMap (opsOf mode),
      '_' ∉ op.1.data ∧
      actOf (classifyAll kw dp raws) op.2.2.1 op.1 = op.2.2.2 ∧
      ∃ r ∈ classifyAll kw dp raws, op.1 = r.month ∧ op.2.2.1 = r.user_id ∧
        op.2.2.2 = r.active_next_month ∧ op.2.1 ∈ personasToCount mode r := by
  intro op hop
  rcases List.mem_flatMap.1 hop with ⟨r, hr, hopr⟩
  unfold opsOf at hopr
  rcases List.mem_map.1 hopr with ⟨p, hp, heq⟩
  subst heq
  refine ⟨(classifyAll_month_shape kw dp raws r hr).2, ?_, r, hr, rfl, rfl, rfl, hp⟩
  show actOf (classifyAll kw dp raws) r.user_id r.month = r.active_next_month
  exact actOf_spec (classifyAll_pairwise kw dp raws) hr

theorem aggregateRecords_BInv (mode : String) (kw : String → List String)
    (dp : String → Option (Nat × Fin 12)) (raws : List RawRow) :
    ∀ b ∈ aggregateRecords mode (classifyAll kw dp raws),
      BInv (actOf (classifyAll kw dp raws)) b ∧ '_' ∉ b.month.data := by
  rw [aggregateRecords_eq]
  exact applyOps_BInv _ []
    (fun op hop => ⟨(pipeline_ops mode kw dp raws op hop).1,
      (pipeline_ops mode kw dp raws op hop).2.1⟩)
    (by simp)

/-! ## Claims -/

/-- C4: delimiter detection (after stripping a leading BOM) returns semicolon
iff the semicolon count strictly exceeds the comma count and is at least the
tab count; otherwise tab iff the tab count strictly exceeds both; otherwise
comma.  In particular 3 commas / 0 semicolons give comma, 1 comma /
2 semicolons give semicolon, and equal comma and semicolon counts give
comma. -/
theorem c4_delimiter_detection :
    (∀ line : String,
      (detectDelimiter line = ';' ↔
        ((stripBOM line).data.count ';' > (stripBOM line).data.count ',' ∧
         (stripBOM line).data.count ';' ≥ (stripBOM line).data.count '\t')) ∧
      (detectDelimiter line = '\t' ↔
        (¬((stripBOM line).data.count ';' > (stripBOM line).data.count ',' ∧
           (stripBOM line).data.count ';' ≥ (stripBOM line).data.count '\t') ∧
         (stripBOM line).data.count '\t' > (stripBOM line).data.count ',' ∧
         (stripBOM line).data.count '\t' > (stripBOM line).data.count ';')) ∧
      (detectDelimiter line = ',' ↔
        (¬((stripBOM line).data.count ';' > (stripBOM line).data.count ',' ∧
           (stripBOM line).data.count ';' ≥ (stripBOM line).data.count '\t') ∧
         ¬((stripBOM line).data.count '\t' > (stripBOM line).data.count ',' ∧
           (stripBOM line).data.count '\t' > (stripBOM line).data.count ';')))) ∧
    detectDelimiter "a,b,c,d" = ',' ∧
    detectDelimiter "a,b;c;d" = ';' ∧
    detectDelimiter "a,b;c" = ',' := by
  refine ⟨?_, by decide, by decide, by decide⟩
  intro line
  unfold detectDelimiter
  dsimp only
  by_cases h1 : (stripBOM line).data.count ';' > (stripBOM line).data.count ',' ∧
      (stripBOM line).data.count ';' ≥ (stripBOM line).data.count '\t'
  · have hc1 : (decide ((stripBOM line).data.count ';' > (stripBOM line).data.count ',') &&
        decide ((stripBOM line).data.count ';' ≥ (stripBOM line).data.count '\t')) = true := by
      simp only [Bool.and_eq_true, decide_eq_true_eq]
      exact ⟨h1.1, h1.2⟩
    rw [if_pos hc1]
    simp [h1.1, h1.2]
  · have hc1 : ¬((decide ((stripBOM line).data.count ';' > (stripBOM line).data.count ',') &&
        decide ((stripBOM line).data.count ';' ≥ (stripBOM line).data.count '\t')) = true) := by
      simp only [Bool.and_eq_true, decide_eq_true_eq]
      intro hc
      exact h1 ⟨hc.1, hc.2⟩
    rw [if_neg hc1]
    by_cases h2 : (stripBOM line).data.count '\t' > (stripBOM line).data.count ',' ∧
        (stripBOM line).data.count '\t' > (stripBOM line).data.count ';'
    · have hc2 : (decide ((stripBOM line).data.count '\t' > (stripBOM line).data.count ',') &&
          decide ((stripBOM line).data.count '\t' > (stripBOM line).data.count ';')) = true := by
        simp only [Bool.and_eq_true, decide_eq_true_eq]
        exact ⟨h2.1, h2.2⟩
      rw [if_pos hc2]
      simp [h1, h2.1, h2.2]
    · have hc2 : ¬((decide ((stripBOM line).data.count '\t' > (stripBOM line).data.count ',') &&
          decide ((stripBOM line).data.count '\t' > (stripBOM line).data.count ';')) = true) := by
        simp only [Bool.and_eq_true, decide_eq_true_eq]
        intro hc
        exact h2 ⟨hc.1, hc.2⟩
      rw [if_neg hc2]
      simp [h1, h2]

/-- C5: classification returns no dominant persona exactly when no persona
flag is set; otherwise the dominant persona is a flagged catalog persona of
minimal priority; the catalog is the fixed 7-entry priority list; and a text
flagging both `veteran` and `trust_erosion` resolves to `trust_erosion`. -/
theorem c5_dominant_priority :
    (∀ (text : String) (kw : String → List String),
      ((classifyDominantPersona text kw).1 = none ↔
        ∀ p ∈ PERSONAS, flagsFor text kw p.key = false) ∧
      (∀ k, (classifyDominantPersona text kw).1 = some k →
        ∃ p ∈ PERSONAS, p.key = k ∧ flagsFor text kw p.key = true ∧
          ∀ q ∈ PERSONAS, flagsFor text kw q.key = true → p.priority ≤ q.priority) ∧
      (flagsFor text kw "trust_erosion" = true →
        (classifyDominantPersona text kw).1 = some "trust_erosion")) ∧
    PERSONAS.map (fun p => (p.key, p.priority)) =
      [("trust_erosion", 1), ("emotional", 2), ("escalation", 3), ("reliability", 4),
       ("overload", 5), ("veteran", 6), ("suggestion", 7)] ∧
    (flagsFor "Gebruik dit al jaren, maar voelt niet veilig" DEFAULT_KEYWORDS "veteran" = true ∧
     flagsFor "Gebruik dit al jaren, maar voelt niet veilig" DEFAULT_KEYWORDS "trust_erosion" = true ∧
     (classifyDominantPersona "Gebruik dit al jaren, maar voelt niet veilig"
        DEFAULT_KEYWORDS).1 = some "trust_erosion") := by
  refine ⟨?_, by decide, by decide, by decide, by decide⟩
  intro text kw
  exact ⟨classify_none_iff text kw, fun k h => classify_some h, fun h => classify_trust h⟩

/-- C5 witness: the priority rule applied at a concrete text flagged for
`trust_erosion`. -/
theorem c5_dominant_priority_witness :
    (classifyDominantPersona "Gebruik dit al jaren, maar voelt niet veilig"
      DEFAULT_KEYWORDS).1 = some "trust_erosion" :=
  (c5_dominant_priority.1 "Gebruik dit al jaren, maar voelt niet veilig"
    DEFAULT_KEYWORDS).2.2 (by decide)

/-- C9: the parser inverts the standard quoting scheme: a field wrapped in
double quotes with each embedded quote doubled parses back to the original
content (here followed by a delimiter and another field, for any content
including the empty one); in particular `"a,""b"",c"` parses to the literal
`a,"b",c`. -/
theorem c9_quoting_roundtrip :
    (∀ s : List Char,
      parseCSVRows ',' ('"' :: (escapeQuotes s ++ ['"', ',', 'x'])) = [[⟨s⟩, "x"]]) ∧
    parseCSV "h\n\"a,\"\"b\"\",c\"" = [[("h", "a,\"b\",c")]] := by
  refine ⟨?_, by decide⟩
  intro s
  have h1 : csvRun ',' ('"' :: (escapeQuotes s ++ '"' :: [',', 'x'])) false [] [] [] =
      csvRun ',' [',', 'x'] false ([] ++ s) [] [] :=
    csvRun_escape s [',', 'x'] [] [] [] (by decide)
  unfold parseCSVRows
  dsimp only
  rw [show ('"' :: (escapeQuotes s ++ ['"', ',', 'x'])) =
    ('"' :: (escapeQuotes s ++ '"' :: [',', 'x'])) from rfl]
  rw [h1]
  rfl

/-- C10: an empty keyword entry makes its persona's flag true on every text
(so the dominant persona is never `none`); the classifier itself does not
filter empty keywords — only the keyword-editor input path discards them. -/
theorem c10_empty_keyword :
    (∀ (text : String) (kw : String → List String) (p : PersonaEntry),
      p ∈ PERSONAS → "" ∈ kw p.key →
        flagsFor text kw p.key = true ∧ (classifyDominantPersona text kw).1 ≠ none) ∧
    (∀ s : String, "" ∉ parseKeywordsInput s) := by
  constructor
  · intro text kw p hp hkw
    have hf : flagsFor text kw p.key = true := flag_of_empty_kw hkw
    exact ⟨hf, classify_not_none hp hf⟩
  · exact parseKeywordsInput_no_empty

/-- C10 witness: a dictionary whose `trust_erosion` list is just the empty
keyword flags every text, and the keyword editor drops empty entries. -/
theorem c10_empty_keyword_witness :
    (flagsFor "x" (fun _ => [""]) "trust_erosion" = true ∧
      (classifyDominantPersona "x" (fun _ => [""])).1 ≠ none) ∧
    "" ∉ parseKeywordsInput ", ,a," :=
  ⟨c10_empty_keyword.1 "x" (fun _ => [""]) ⟨"trust_erosion", 1⟩ (by decide) (by decide),
   c10_empty_keyword.2 ", ,a,"⟩

set_option maxRecDepth 4000 in
/-- C1: on the two-row CSV `user_id,month,text` with the two Dutch feedback
texts, the pipeline resolves `u1`'s `2025-09` record to
`active_next_month = true` (as claimed) but classifies it as no persona
(`none`), not `trust_erosion`: the text-extraction fallback picks the second
column (`month`), so the extracted text is the string `"2025-09"` and no
keyword can match.  This contradicts the file's own header comment (the
`text` column holds the messages to classify) and its bundled sample data. -/
theorem c1_end_to_end_divergence :
    (classifyAll DEFAULT_KEYWORDS dp0 (parseCSV
        "user_id,month,text\nu1,2025-09,\"Ik reken hierop, maar dit voelt niet veilig.\"\nu1,2025-10,\"Nog steeds onbetrouwbaar. Klaar mee.\"")).map
      (fun r => (r.user_id, r.month, r.text, r.dominant_persona, r.active_next_month)) =
    [("u1", "2025-09", "2025-09", none, true), ("u1", "2025-10", "2025-10", none, false)] ∧
    pickSuggestionText
      [("user_id", "u1"), ("month", "2025-09"),
       ("text", "Ik reken hierop, maar dit voelt niet veilig.")] = "2025-09" ∧
    (classifyDominantPersona "Ik reken hierop, maar dit voelt niet veilig."
      DEFAULT_KEYWORDS).1 = some "trust_erosion" := by
  refine ⟨by decide, by decide, by decide⟩

/-- C2 counterexample: with two rows merging into one user-month group whose
first extracted text is empty, the merged text is `"x"` while the
newline-join of the contributing texts `["", "x"]` is `"\nx"`. -/
theorem c2_counterexample :
    (userMonthRowsOf dp0 (parseCSV "user_id,foo,month\nu1,,2025-01\nu1,x,2025-01")).map
      (fun r => (r.user_id, r.month, r.text)) = [("u1", "2025-01", "x")] ∧
    contributingTexts dp0 (parseCSV "user_id,foo,month\nu1,,2025-01\nu1,x,2025-01")
      "u1" "2025-01" = ["", "x"] ∧
    joinNL ["", "x"] = "\nx" ∧
    ("x" : String) ≠ "\nx" := by
  refine ⟨by decide, by decide, by decide, by decide⟩

/-- C2 amended: the merged record's text equals the newline-join of the
contributing raw rows' extracted texts in encounter order after discarding
the leading run of empty texts (an empty text contributes a separator only
once a non-empty text precedes it). -/
theorem c2_merged_text_join (dp : String → Option (Nat × Fin 12)) (raws : List RawRow) :
    ∀ rec ∈ userMonthRowsOf dp raws,
      rec.text = joinNL ((contributingTexts dp raws rec.user_id rec.month).dropWhile
        (fun t => t = "")) := by
  intro rec hrec
  rw [userMonthRows_text dp raws rec hrec, joinFrom_empty]

/-- C2 witness: the amended merge invariant at the counterexample input. -/
theorem c2_merged_text_join_witness :
    (⟨"u1", "2025-01", "x", ""⟩ : UserMonthRow) ∈
      userMonthRowsOf dp0 (parseCSV "user_id,foo,month\nu1,,2025-01\nu1,x,2025-01") ∧
    ("x" : String) = joinNL ((contributingTexts dp0
      (parseCSV "user_id,foo,month\nu1,,2025-01\nu1,x,2025-01") "u1" "2025-01").dropWhile
        (fun t => t = "")) :=
  ⟨by decide,
   c2_merged_text_join dp0 (parseCSV "user_id,foo,month\nu1,,2025-01\nu1,x,2025-01")
     ⟨"u1", "2025-01", "x", ""⟩ (by decide)⟩

/-- C3 counterexample: months in `YYYY-MM` form may have a leading zero in
the year; `nextMonth` renders the incremented year without padding
(`"0025-09"` gives `"25-10"`), so a record of the same user in the calendar
successor `"0025-10"` is NOT found and retention resolves to `false` even
though the successor record exists. -/
theorem c3_counterexample :
    (userMonthRowsOf dp0 (parseCSV "user_id,month,text\nu1,0025-09,x\nu1,0025-10,x")).map
      (fun r => (r.user_id, r.month, r.active_next_month)) =
      [("u1", "0025-09", ""), ("u1", "0025-10", "")] ∧
    nextMonth "0025-09" = "25-10" ∧
    (classifyAll DEFAULT_KEYWORDS dp0
        (parseCSV "user_id,month,text\nu1,0025-09,x\nu1,0025-10,x")).map
      (fun r => (r.user_id, r.month, r.active_next_month)) =
      [("u1", "0025-09", false), ("u1", "0025-10", false)] := by
  refine ⟨by decide, by decide, by decide⟩

/-- C3 amended: a non-empty raw `active_next_month` resolves true exactly on
lower-cased `1/true/yes/y`; an empty one resolves true exactly when a
normalized record of the same user exists in the month string computed by
`nextMonth` (year incremented at December and rendered without zero-padding,
month zero-padded to two digits); for canonical months whose year has no
leading zero (1000–9999) that string is the calendar-successor `YYYY-MM`. -/
theorem c3_retention_resolution :
    (∀ (kw : String → List String) (dp : String → Option (Nat × Fin 12))
      (raws : List RawRow), ∀ r ∈ userMonthRowsOf dp raws,
      (r.active_next_month ≠ "" →
        ((classifyRecord kw (presenceKeys (userMonthRowsOf dp raws)) r).active_next_month =
            true ↔ norm r.active_next_month ∈ ["1", "true", "yes", "y"])) ∧
      (r.active_next_month = "" →
        ((classifyRecord kw (presenceKeys (userMonthRowsOf dp raws)) r).active_next_month =
            true ↔ ∃ r2 ∈ userMonthRowsOf dp raws,
              r2.user_id = r.user_id ∧ r2.month = nextMonth r.month))) ∧
    (∀ y m : Nat, 1000 ≤ y → y ≤ 9999 → 1 ≤ m → m ≤ 12 →
      nextMonth (natRepr y ++ "-" ++ pad2 m) =
        if m = 12 then natRepr (y + 1) ++ "-" ++ pad2 1
        else natRepr y ++ "-" ++ pad2 (m + 1)) := by
  constructor
  · intro kw dp raws r hr
    constructor
    · intro hne
      show resolveActiveNext (presenceKeys (userMonthRowsOf dp raws)) r = true ↔ _
      unfold resolveActiveNext
      rw [if_pos hne]
      exact List.elem_iff
    · intro he
      show resolveActiveNext (presenceKeys (userMonthRowsOf dp raws)) r = true ↔ _
      unfold resolveActiveNext
      rw [if_neg (by simp [he])]
      exact presence_iff (userMonthRowsOf dp raws)
        (fun r2 hr2 => (userMonthRows_month_shape dp raws r2 hr2).2) r.user_id
        (nextMonth r.month) (nextMonth_no_underscore r.month)
  · intro y m hy _ hm1 hm2
    exact nextMonth_canonical (by omega) hm1 hm2

/-- C3 witness: inference at a concrete dataset (a `2025-10` record makes
`u1`'s `2025-09` record resolve true) and the calendar rollover at
December 2025. -/
theorem c3_retention_resolution_witness :
    ((classifyRecord DEFAULT_KEYWORDS
        (presenceKeys (userMonthRowsOf dp0
          (parseCSV "user_id,month,text\nu1,2025-09,x\nu1,2025-10,x")))
        ⟨"u1", "2025-09", "2025-09", ""⟩).active_next_month = true ↔
      ∃ r2 ∈ userMonthRowsOf dp0
          (parseCSV "user_id,month,text\nu1,2025-09,x\nu1,2025-10,x"),
        r2.user_id = "u1" ∧ r2.month = nextMonth "2025-09") ∧
    nextMonth (natRepr 2025 ++ "-" ++ pad2 12) = natRepr 2026 ++ "-" ++ pad2 1 := by
  constructor
  · exact (c3_retention_resolution.1 DEFAULT_KEYWORDS dp0
      (parseCSV "user_id,month,text\nu1,2025-09,x\nu1,2025-10,x")
      ⟨"u1", "2025-09", "2025-09", ""⟩ (by decide)).2 rfl
  · have h := c3_retention_resolution.2 2025 12 (by norm_num) (by norm_num)
      (by norm_num) (by norm_num)
    rw [h]
    simp

/-- Every emitted output row carries the `Set` sizes and retention of some
aggregation bucket (grouping and the delta pass only reorder rows and fill
the MoM fields). -/
theorem outRowsOf_fields (mode : String) (kw : String → List String)
    (dp : String → Option (Nat × Fin 12)) (raws : List RawRow) :
    ∀ row ∈ outRowsOf mode kw dp raws,
      ∃ b ∈ aggregateRecords mode (classifyAll kw dp raws),
        row.users = b.users.length ∧ row.retained = b.retainedUsers.length ∧
        row.churned = b.churnedUsers.length ∧
        row.retention = (if b.users.length = 0 then (0 : ℚ)
          else (b.retainedUsers.length : ℚ) / (b.users.length : ℚ)) := by
  intro row hrow
  unfold outRowsOf at hrow
  rcases List.mem_flatten.1 hrow with ⟨L, hL, hrowL⟩
  rcases List.mem_map.1 hL with ⟨g, hg, hLg⟩
  rw [← hLg] at hrowL
  rcases deltaChain_mem _ none row hrowL with ⟨y, hy, _, _, hu, hret, hch, hrn⟩
  have hy2 : y ∈ g.2 := (List.perm_insertionSort aggLE g.2).mem_iff.1 hy
  rcases groupByPersona_mem _ [] g hg y hy2 with ⟨g0, hg0, _⟩ | ⟨hyrows, _⟩
  · exact absurd hg0 (by simp)
  · unfold aggRowsOf at hyrows
    rcases List.mem_map.1 hyrows with ⟨b, hb, hby⟩
    refine ⟨b, hb, ?_, ?_, ?_, ?_⟩
    · rw [hu, ← hby]
      rfl
    · rw [hret, ← hby]
      rfl
    · rw [hch, ← hby]
      rfl
    · rw [hrn, ← hby]
      rfl

/-- C6: every emitted (month, persona) aggregate satisfies
`retained + churned = users` exactly, `retention = retained / users` (0 when
`users = 0`), and `0 ≤ retention ≤ 1`. -/
theorem c6_aggregate_invariants (mode : String) (kw : String → List String)
    (dp : String → Option (Nat × Fin 12)) (raws : List RawRow) :
    ∀ row ∈ outRowsOf mode kw dp raws,
      row.retained + row.churned = row.users ∧
      row.retention = (if row.users = 0 then (0 : ℚ)
        else (row.retained : ℚ) / (row.users : ℚ)) ∧
      0 ≤ row.retention ∧ row.retention ≤ 1 := by
  intro row hrow
  rcases outRowsOf_fields mode kw dp raws row hrow with ⟨b, hb, hu, hret, hch, hrn⟩
  obtain ⟨hsum, hle⟩ := BInv_counts (aggregateRecords_BInv mode kw dp raws b hb).1
  refine ⟨by rw [hu, hret, hch]; exact hsum, by rw [hrn, hu, hret], ?_, ?_⟩
  · rw [hrn]
    split
    · exact le_refl 0
    · exact div_nonneg (Nat.cast_nonneg _) (Nat.cast_nonneg _)
  · rw [hrn]
    split
    · exact zero_le_one
    · next h =>
      rw [div_le_one (by exact_mod_cast Nat.pos_of_ne_zero h)]
      exact_mod_cast hle

/-- C6 witness: the invariants at a concrete aggregate of the pipeline. -/
theorem c6_aggregate_invariants_witness :
    ∃ row ∈ outRowsOf "dominant" DEFAULT_KEYWORDS dp0
        (parseCSV "user_id,text,month\nu1,weer,2025-08\nu1,weer,2025-10\nu2,weer,2025-10"),
      row.retained + row.churned = row.users ∧ 0 ≤ row.retention ∧ row.retention ≤ 1 := by
  have hne : outRowsOf "dominant" DEFAULT_KEYWORDS dp0
      (parseCSV "user_id,text,month\nu1,weer,2025-08\nu1,weer,2025-10\nu2,weer,2025-10") ≠
      [] := by decide
  have h := c6_aggregate_invariants "dominant" DEFAULT_KEYWORDS dp0
    (parseCSV "user_id,text,month\nu1,weer,2025-08\nu1,weer,2025-10\nu2,weer,2025-10")
    _ (List.head_mem hne)
  exact ⟨_, List.head_mem hne, h.1, h.2.2.1, h.2.2.2⟩

/-- C7: per persona the aggregates are taken in month-ascending order; the
earliest has null MoM deltas; each later one takes its deltas from the
immediately preceding emitted aggregate of the same persona (months with no
aggregate are simply absent from the chain, not treated as zero).  In
particular, with `escalation` aggregates for 2025-08 and 2025-10 and none
for 2025-09, the 2025-10 `users_mom` of 1 is computed against 2025-08. -/
theorem c7_delta_chaining :
    (∀ (mode : String) (kw : String → List String)
      (dp : String → Option (Nat × Fin 12)) (raws : List RawRow),
      ∀ g ∈ groupByPersona (aggRowsOf mode kw dp raws),
        (sortByMonth g.2).Sorted aggLE ∧
        (∀ h0 : 0 < (sortByMonth g.2).length,
          ((deltaChain none (sortByMonth g.2)).get
              ⟨0, by rw [deltaChain_length]; exact h0⟩).retention_mom = none ∧
          ((deltaChain none (sortByMonth g.2)).get
              ⟨0, by rw [deltaChain_length]; exact h0⟩).users_mom = none) ∧
        (∀ (i : Nat) (hi : i + 1 < (sortByMonth g.2).length),
          ((deltaChain none (sortByMonth g.2)).get
              ⟨i + 1, by rw [deltaChain_length]; exact hi⟩).retention_mom =
            some (((sortByMonth g.2).get ⟨i + 1, hi⟩).retention -
              ((sortByMonth g.2).get ⟨i, by omega⟩).retention) ∧
          ((deltaChain none (sortByMonth g.2)).get
              ⟨i + 1, by rw [deltaChain_length]; exact hi⟩).users_mom =
            some ((((sortByMonth g.2).get ⟨i + 1, hi⟩).users : Int) -
              (((sortByMonth g.2).get ⟨i, by omega⟩).users : Int)))) ∧
    (outRowsOf "dominant" DEFAULT_KEYWORDS dp0
        (parseCSV "user_id,text,month\nu1,weer,2025-08\nu1,weer,2025-10\nu2,weer,2025-10")).map
      (fun r => (r.month, r.persona, r.users, r.users_mom)) =
      [("2025-08", "escalation", 1, none), ("2025-10", "escalation", 2, some 1)] := by
  constructor
  · intro mode kw dp raws g _
    haveI htot : IsTotal AggRow aggLE := ⟨fun a b => by
      unfold aggLE
      rcases lexLeL_total a.month.data b.month.data with h | h
      · exact Or.inl h
      · exact Or.inr h⟩
    haveI htr : IsTrans AggRow aggLE := ⟨fun a b c h1 h2 => by
      unfold aggLE at h1 h2 ⊢
      exact lexLeL_trans h1 h2⟩
    refine ⟨List.sorted_insertionSort aggLE g.2, ?_, ?_⟩
    · intro h0
      rw [deltaChain_get (sortByMonth g.2) none 0 h0]
      exact ⟨by simp, by simp⟩
    · intro i hi
      rw [deltaChain_get (sortByMonth g.2) none (i + 1) hi]
      constructor
      · show ((if hz : i + 1 = 0 then none
            else some ((sortByMonth g.2).get ⟨i + 1 - 1, by omega⟩)).map
              (fun p => ((sortByMonth g.2).get ⟨i + 1, hi⟩).retention - p.retention)) = _
        rw [dif_neg (Nat.succ_ne_zero i)]
        rfl
      · show ((if hz : i + 1 = 0 then none
            else some ((sortByMonth g.2).get ⟨i + 1 - 1, by omega⟩)).map
              (fun p => (((sortByMonth g.2).get ⟨i + 1, hi⟩).users : Int) - (p.users : Int))) = _
        rw [dif_neg (Nat.succ_ne_zero i)]
        rfl
  · decide

/-- C7 witness: the delta chain at a concrete pipeline dataset whose
`escalation` persona skips a month. -/
theorem c7_delta_chaining_witness :
    ∃ g ∈ groupByPersona (aggRowsOf "dominant" DEFAULT_KEYWORDS dp0
        (parseCSV "user_id,text,month\nu1,weer,2025-08\nu1,weer,2025-10\nu2,weer,2025-10")),
      (sortByMonth g.2).Sorted aggLE ∧
      (deltaChain none (sortByMonth g.2)).map (fun r => r.users_mom) = [none, some 1] := by
  refine ⟨(groupByPersona (aggRowsOf "dominant" DEFAULT_KEYWORDS dp0
      (parseCSV "user_id,text,month\nu1,weer,2025-08\nu1,weer,2025-10\nu2,weer,2025-10"))).head
      (by decide),
    List.head_mem (by decide),
    (c7_delta_chaining.1 "dominant" DEFAULT_KEYWORDS dp0
      (parseCSV "user_id,text,month\nu1,weer,2025-08\nu1,weer,2025-10\nu2,weer,2025-10")
      _ (List.head_mem (by decide))).1,
    by decide⟩

/-- C8: in `dominant` mode a record contributes to exactly the bucket of its
dominant persona (none when unset); in `multi` mode it contributes to every
catalog persona whose flag is true; a bucket's user set consists exactly of
the users of the records contributing to its (month, persona); and a record
flagging both `escalation` and `overload` feeds both buckets in `multi` mode
but only `escalation`'s in `dominant` mode. -/
theorem c8_mode_contribution :
    (∀ r : ClassifiedRecord,
      (∀ p, r.dominant_persona = some p → personasToCount "dominant" r = [p]) ∧
      (r.dominant_persona = none → personasToCount "dominant" r = []) ∧
      (∀ p, p ∈ personasToCount "multi" r ↔
        p ∈ PERSONAS.map (fun q => q.key) ∧ r.flags p = true)) ∧
    (∀ (mode : String) (kw : String → List String)
      (dp : String → Option (Nat × Fin 12)) (raws : List RawRow),
      ∀ b ∈ aggregateRecords mode (classifyAll kw dp raws), ∀ u,
        (u ∈ b.users ↔ ∃ r ∈ classifyAll kw dp raws,
          r.user_id = u ∧ r.month = b.month ∧ b.persona ∈ personasToCount mode r)) ∧
    ((aggregateRecords "multi"
        [classifyRecord DEFAULT_KEYWORDS [] ⟨"u1", "2025-01", "weer onduidelijk", ""⟩]).map
      (fun b => (b.month, b.persona, b.users)) =
      [("2025-01", "escalation", ["u1"]), ("2025-01", "overload", ["u1"])] ∧
    (aggregateRecords "dominant"
        [classifyRecord DEFAULT_KEYWORDS [] ⟨"u1", "2025-01", "weer onduidelijk", ""⟩]).map
      (fun b => (b.month, b.persona, b.users)) =
      [("2025-01", "escalation", ["u1"])]) := by
  refine ⟨?_, ?_, by decide, by decide⟩
  · intro r
    refine ⟨?_, ?_, ?_⟩
    · intro p h
      unfold personasToCount
      rw [if_pos rfl, h]
    · intro h
      unfold personasToCount
      rw [if_pos rfl, h]
    · intro p
      unfold personasToCount
      rw [if_neg (by decide)]
      rw [List.mem_filter]
  · intro mode kw dp raws b hb u
    have hbm : '_' ∉ b.month.data := (aggregateRecords_BInv mode kw dp raws b hb).2
    rw [aggregateRecords_eq] at hb
    have hiff := applyOps_users _ [] (by simp) b hb u
    rw [hiff]
    constructor
    · rintro (⟨b0, hb0, _⟩ | ⟨op, hop, hk, hvu⟩)
      · exact absurd hb0 (by simp)
      · obtain ⟨hop1, _, r, hr, hm, huser, _, hpc⟩ := pipeline_ops mode kw dp raws op hop
        have hk2 : bucketKey r.month op.2.1 = bucketKey b.month b.persona := by
          rw [← hm]
          exact hk
        have hrm : '_' ∉ r.month.data := by
          rw [hm] at hop1
          exact hop1
        obtain ⟨hmon, hper⟩ := (bucketKey_inj hrm hbm).1 hk2
        refine ⟨r, hr, ?_, hmon, ?_⟩
        · rw [← huser]
          exact hvu
        · rw [← hper]
          exact hpc
    · rintro ⟨r, hr, hru, hrm, hpc⟩
      right
      refine ⟨(r.month, b.persona, r.user_id, r.active_next_month), ?_, ?_, hru⟩
      · exact List.mem_flatMap.2 ⟨r, hr, List.mem_map.2 ⟨b.persona, hpc, rfl⟩⟩
      · show bucketKey r.month b.persona = bKey b
        rw [hrm]
        rfl

/-- C8 witness: the dominant-mode contribution list of a record flagging
both `escalation` and `overload`. -/
theorem c8_mode_contribution_witness :
    personasToCount "dominant"
      (classifyRecord DEFAULT_KEYWORDS [] ⟨"u1", "2025-01", "weer onduidelijk", ""⟩) =
      ["escalation"] :=
  (c8_mode_contribution.1
    (classifyRecord DEFAULT_KEYWORDS [] ⟨"u1", "2025-01", "weer onduidelijk", ""⟩)).1
    "escalation" (by decide)

end Persona
